import Mathlib

/-!
Verification development for the resolution-and-reconciliation engine of
`ai-skills-sync`: a shallow embedding in Lean 4 of the resolver, state store,
sync orchestrator, content fetcher and cache reclaimer, together with theorems
settling the specification's claims about them.

Conventions of the embedding:
* JavaScript objects (`Record<string, T>`) are modelled as insertion-ordered
  association lists with unique keys (`List (String × T)`); `obj[k] = v` is
  `setKey`, `obj[k]` is `lookupKey`, `Object.keys` is `keysOf`.
* `Set` values are modelled by `List.dedup` / `List.contains` where only size
  and membership are observed.
* Optional string fields (`path?: string`) are `Option String`; JavaScript
  truthiness of a possibly-absent string (where `""` behaves like absence)
  is made explicit at each use site, mirroring the source expression.
* Fallible code (`throw`) returns `Except String _`.
* Filesystem mutations performed by the sync orchestrator are recorded in an
  explicit effect trace (`Effect`); read-only filesystem queries
  (`fs.existsSync`, reading `.gitignore`) and the external transport
  (`git clone`, local-path resolution) are oracle fields of an environment
  record, so that runs are pure functions of the environment.
-/

namespace AiSkillsSync

/-! ## Association-list model of JavaScript objects and maps -/

/-- `obj[k]`: value of the first (and, for well-formed objects, only) binding
of key `k`. -/
def lookupKey {α : Type} : List (String × α) → String → Option α
  | [], _ => none
  | (k', v) :: m, k => if k' = k then some v else lookupKey m k

/-- `obj[k] = v`: JavaScript object/`Map` assignment — an existing key keeps
its position and gets the new value, a fresh key is appended. -/
def setKey {α : Type} : List (String × α) → String → α → List (String × α)
  | [], k, v => [(k, v)]
  | (k', w) :: m, k, v =>
    if k' = k then (k, v) :: m else (k', w) :: setKey m k v

/-- `Object.keys`. -/
def keysOf {α : Type} (m : List (String × α)) : List String :=
  m.map (·.1)

/-! ## Core data model (`src/types.ts`) -/

structure SkillRef where
  source : String
  path : Option String
deriving DecidableEq, Repr

structure ParsedSource where
  owner : String
  repo : String
  ref : Option String
deriving DecidableEq, Repr

inductive SkillType
  | global
  | project
  | conditional
deriving DecidableEq, Repr

inductive AgentType
  | opencode
  | claude
  | copilot
  | cursor
  | agents
deriving DecidableEq, Repr

structure ResolvedSkill where
  ref : SkillRef
  type : SkillType
  installName : String
deriving DecidableEq, Repr

structure InstalledSkill where
  source : String
  path : Option String
  commitSha : Option String
  syncedAt : String
  agents : List AgentType
  type : SkillType
deriving DecidableEq, Repr

structure ProjectState where
  skills : List (String × InstalledSkill)
  gitignoreSuggested : Bool
deriving DecidableEq, Repr

structure SyncState where
  version : Nat
  lastSync : String
  projects : List (String × ProjectState)
deriving DecidableEq, Repr

structure AgentDir where
  type : AgentType
  skillsPath : String
deriving DecidableEq, Repr

structure ConditionalRule where
  whenGlob : String
  skills : List SkillRef
deriving DecidableEq, Repr

structure Config where
  globalSkills : Option (List SkillRef)
  projects : Option (List (String × List SkillRef))
  conditional : Option (List ConditionalRule)
deriving DecidableEq, Repr

/-! ## Reference model (`src/types.ts`: `parseSource`, `deriveSkillName`) -/

/-- Split a character list at the first occurrence of `c`
(`String.prototype.indexOf` followed by the two `slice`s). -/
def splitFirst (c : Char) : List Char → Option (List Char × List Char)
  | [] => none
  | x :: xs =>
    if x = c then some ([], xs)
    else (splitFirst c xs).map (fun p => (x :: p.1, p.2))

/-- `parseSource`: parse `owner/repo[@ref]`; the sentinel `"local"` maps to a
fixed local/local pair; inputs with no `/` or an empty owner or repo segment
are rejected.  An empty `@ref` suffix is falsy in the source's
`return ref ? { owner, repo, ref } : { owner, repo }`, hence dropped. -/
def parseSource (source : String) : Except String ParsedSource :=
  if source = "local" then
    .ok ⟨"local", "local", none⟩
  else
    let split := match splitFirst '@' source.data with
      | some p => (p.1, some p.2)
      | none => (source.data, none)
    match splitFirst '/' split.1 with
    | none =>
      .error ("Invalid source format: \"" ++ source ++ "\" - expected \"owner/repo[@ref]\"")
    | some p =>
      if p.1 = [] ∨ p.2 = [] then
        .error ("Invalid source format: \"" ++ source ++ "\" - owner and repo must not be empty")
      else
        let ref : Option String := match split.2 with
          | some r => if r = [] then none else some (String.mk r)
          | none => none
        .ok ⟨String.mk p.1, String.mk p.2, ref⟩

/-- Model of Node's `path.basename`: strip trailing slashes, then take the
segment after the last remaining slash. -/
def basename (p : String) : String :=
  let q := p.dropRightWhile (fun c => c = '/')
  if q = "" then (if p = "" then "." else "/")
  else (q.splitOn "/").getLastD q

/-- `deriveSkillName`: the base name is the final segment of `path` when the
`path` field is truthy (present and non-empty), else the repo name. -/
def deriveSkillName (ref : SkillRef) : Except String String :=
  match ref.path with
  | some p => if p = "" then (parseSource ref.source).map (·.repo) else .ok (basename p)
  | none => (parseSource ref.source).map (·.repo)

/-! ## Resolver (`src/resolver.ts`) -/

structure TaggedSkill where
  ref : SkillRef
  type : SkillType
deriving DecidableEq, Repr

/-- `skillKey`: the deduplication identity `"${source}::${path ?? ""}"`.
A nullish `path` contributes the empty string, so an explicitly empty `path`
and an absent one produce the same key. -/
def skillKey (ref : SkillRef) : String :=
  ref.source ++ "::" ++ ref.path.getD ""

/-- `typePriority`: `project(2) > global(1) > conditional(0)`. -/
def typePriority : SkillType → Nat
  | .project => 2
  | .global => 1
  | .conditional => 0

/-- One step of `deduplicateSkills`' loop over the insertion-ordered `Map`:
a fresh key is appended; an existing key is overwritten in place only when the
incoming tag has strictly higher priority. -/
def dedupStep (seen : List (String × TaggedSkill)) (skill : TaggedSkill) :
    List (String × TaggedSkill) :=
  let key := skillKey skill.ref
  match lookupKey seen key with
  | none => seen ++ [(key, skill)]
  | some existing =>
    if typePriority existing.type < typePriority skill.type then
      setKey seen key skill
    else
      seen

/-- `deduplicateSkills`: collapse references with equal identity key, keeping
the highest-priority tag. -/
def deduplicateSkills (skills : List TaggedSkill) : List TaggedSkill :=
  (skills.foldl dedupStep []).map (·.2)

/-- Append `v` to the group keyed `k`, creating the group at the end when
absent (`Map`-based grouping in `resolveInstallNames`). -/
def groupAdd {α : Type} (groups : List (String × List α)) (k : String) (v : α) :
    List (String × List α) :=
  match lookupKey groups k with
  | none => groups ++ [(k, [v])]
  | some g => setKey groups k (g ++ [v])

/-- The per-group branch of `resolveInstallNames`' output loop: a singleton
group keeps the base name unchanged, a collision group dot-prefixes every
member with the owner parsed from that member's `source`. -/
def resolveGroup (g : String × List TaggedSkill) :
    Except String (List ResolvedSkill) :=
  match g.2 with
  | [e] => pure [ResolvedSkill.mk e.ref e.type g.1]
  | group => group.mapM (fun e =>
      (parseSource e.ref.source).map
        (fun parsed => ResolvedSkill.mk e.ref e.type (parsed.owner ++ "." ++ g.1)))

/-- `resolveInstallNames`: group by derived base name, then emit each group
through `resolveGroup`. -/
def resolveInstallNames (skills : List TaggedSkill) :
    Except String (List ResolvedSkill) := do
  let withNames ← skills.mapM (fun s => (deriveSkillName s.ref).map (fun n => (s, n)))
  let groups := withNames.foldl (fun gs p => groupAdd gs p.2 p.1) []
  let resolvedGroups ← groups.mapM resolveGroup
  pure resolvedGroups.flatten

/-- External collaborators of `resolveSkills`: platform path normalization
(`normalizePath` in `paths.ts`) and the conditional-rule scanner
(`scanForConditionalMatches`), both read-only. -/
structure ResolverEnv where
  normalizePath : String → String
  scanMatches : List ConditionalRule → List ConditionalRule

/-- `resolveSkills`: collect global, matching-project and fired-conditional
references, deduplicate, then resolve install names. -/
def resolveSkills (env : ResolverEnv) (config : Config) (projectRoot : String) :
    Except String (List ResolvedSkill) :=
  let globalTagged := (config.globalSkills.getD []).map
    (fun r => TaggedSkill.mk r .global)
  let normalizedRoot := env.normalizePath projectRoot
  let projectTagged := (((config.projects.getD []).filter
      (fun p => env.normalizePath p.1 == normalizedRoot)).map
      (fun p => p.2.map (fun r => TaggedSkill.mk r .project))).flatten
  let conditionalRules := config.conditional.getD []
  let conditionalTagged :=
    if conditionalRules.isEmpty then []
    else ((env.scanMatches conditionalRules).map
      (fun rule =>
        rule.skills.map (fun r => TaggedSkill.mk r .conditional))).flatten
  resolveInstallNames
    (deduplicateSkills (globalTagged ++ projectTagged ++ conditionalTagged))

/-! ## State store (`src/state.ts`) -/

def emptyProjectState : ProjectState := ⟨[], false⟩

/-- `getProjectState`. -/
def getProjectState (state : SyncState) (projectRoot : String) : ProjectState :=
  (lookupKey state.projects projectRoot).getD emptyProjectState

/-- The loop body of `isInSync`: the resolved skill's install name must exist
in the installed map with matching `source` and `path`. -/
def entryMatches (installed : List (String × InstalledSkill))
    (s : ResolvedSkill) : Bool :=
  match lookupKey installed s.installName with
  | none => false
  | some entry => entry.source == s.ref.source && entry.path == s.ref.path

/-- `isInSync`: the installed-name set and the resolved-name set have the same
size, and every resolved skill's install name is installed with matching
`source` and `path`.  Commit SHAs are not consulted. -/
def isInSync (state : SyncState) (projectRoot : String)
    (resolvedSkills : List ResolvedSkill) : Bool :=
  let installed := (getProjectState state projectRoot).skills
  let installedNames := (keysOf installed).dedup
  let resolvedNames := (resolvedSkills.map (·.installName)).dedup
  if installedNames.length ≠ resolvedNames.length then false
  else resolvedSkills.all (entryMatches installed)

/-- `getOrphanedSkills`: installed names with no entry in the resolved set. -/
def getOrphanedSkills (state : SyncState) (projectRoot : String)
    (resolvedSkills : List ResolvedSkill) : List String :=
  let resolvedNames := resolvedSkills.map (·.installName)
  (keysOf (getProjectState state projectRoot).skills).filter
    (fun name => ¬ resolvedNames.contains name)

/-! ## Filesystem trees and the content fetcher (`src/fetcher.ts`) -/

/-- A filesystem subtree: a regular file with a byte size, or a directory with
an ordered list of named children. -/
inductive FsEntry
  | file (size : Nat)
  | dir (children : List (String × FsEntry))

def FsEntry.isDir : FsEntry → Bool
  | .file _ => false
  | .dir _ => true

/-- Child lookup inside a tree (`path.join` one segment deep). -/
def FsEntry.child? (e : FsEntry) (name : String) : Option FsEntry :=
  match e with
  | .file _ => none
  | .dir cs => lookupKey cs name

/-- `fs.existsSync` of a relative path (already split into segments) inside a
tree. -/
def hasSubpath : FsEntry → List String → Bool
  | _, [] => true
  | e, seg :: rest =>
    match e.child? seg with
    | some c => hasSubpath c rest
    | none => false

/-- JavaScript truthiness of an optional string: `""` behaves like absence
(`ref.path ? … : …`). -/
def truthy (p : Option String) : Option String :=
  match p with
  | some s => if s = "" then none else some s
  | none => none

/-- Placeholder for the platform cache root returned by `env-paths`
(an external collaborator); only used to render cache path strings. -/
def cacheDirStr : String := "<cache>"

/-- `getCachePath`: `<cache>/github/<owner>/<repo>/<commitSha>[/<subpath>]`. -/
def getCachePath (parsed : ParsedSource) (commitSha : String)
    (subpath : Option String) : String :=
  let base := cacheDirStr ++ "/github/" ++ parsed.owner ++ "/" ++ parsed.repo
    ++ "/" ++ commitSha
  match truthy subpath with
  | some p => base ++ "/" ++ p
  | none => base

/-- The repo directory `<cache>/github/<owner>/<repo>` as a tree node, where
the cache argument is the (possibly absent) `github` directory. -/
def lookupCacheRepo (cache : Option FsEntry) (owner repo : String) :
    Option FsEntry :=
  match cache with
  | none => none
  | some g =>
    match g.child? owner with
    | none => none
    | some o => o.child? repo

/-- Scan the commit-SHA entries of a repo cache directory in order; the first
directory entry containing the requested subpath is a hit
(`findCachedSkill`'s loop). -/
def findCachedIn (parsed : ParsedSource) (subpath : Option String) :
    List (String × FsEntry) → Option String
  | [] => none
  | (sha, e) :: rest =>
    if e.isDir then
      let ok := match truthy subpath with
        | none => true
        | some p => hasSubpath e (p.splitOn "/")
      if ok then
        some (getCachePath parsed sha subpath)
      else findCachedIn parsed subpath rest
    else findCachedIn parsed subpath rest

/-- `findCachedSkill`: any existing commit-SHA subdirectory of
`<cache>/github/<owner>/<repo>` whose optional subpath exists is a hit;
the pinned `@ref` of the source plays no part in the probe. -/
def findCachedSkill (cache : Option FsEntry) (ref : SkillRef) :
    Except String (Option String) := do
  let parsed ← parseSource ref.source
  match lookupCacheRepo cache parsed.owner parsed.repo with
  | some (.dir entries) => pure (findCachedIn parsed ref.path entries)
  | _ => pure none

/-- Result of one fetch: the path to the skill's files, the commit SHA when a
fresh clone produced it, and whether a clone (temp-dir plus cache write)
happened. -/
structure FetchOutcome where
  path : String
  commitSha : Option String
  cloned : Bool
deriving DecidableEq, Repr

/-- External collaborators of the fetcher: the cache tree, local-path
resolution (`resolveLocalSkill`'s filesystem checks) and the clone transport
(`git clone` + `rev-parse` + subpath verification), which on success yields
the commit SHA. -/
structure FetchWorld where
  cache : Option FsEntry
  localResolve : String → Except String String
  clone : SkillRef → Except String String

/-- `fetchSkill`: local references resolve directly (a falsy `path` is
rejected); remote references probe the cache first and clone only on a
miss, in which case the returned path is the fresh cache location and the
commit SHA is reported. -/
def fetchSkill (w : FetchWorld) (ref : SkillRef) : Except String FetchOutcome :=
  if ref.source = "local" then
    match truthy ref.path with
    | none => .error "local skill requires a path"
    | some p => (w.localResolve p).map (fun abs => ⟨abs, none, false⟩)
  else do
    match ← findCachedSkill w.cache ref with
    | some cached => pure ⟨cached, none, false⟩
    | none => do
      let sha ← w.clone ref
      let parsed ← parseSource ref.source
      pure ⟨getCachePath parsed sha ref.path, some sha, true⟩

/-- Insert a subtree at a segment path, creating intermediate directories
(`mkdir -p` of the parent followed by `cp -r`, as in `cloneAndExtract`'s
cache write). -/
def insertAt : Option FsEntry → List String → FsEntry → FsEntry
  | _, [], content => content
  | e, seg :: rest, content =>
    let children := match e with
      | some (.dir cs) => cs
      | _ => []
    FsEntry.dir (setKey children seg
      (insertAt (lookupKey children seg) rest content))

/-- The `github` cache tree after `cloneAndExtract` copies a cloned skill to
`getCachePath parsed sha subpath`. -/
def cacheAfterClone (cache : Option FsEntry) (parsed : ParsedSource)
    (sha : String) (subpath : Option String) (content : FsEntry) : FsEntry :=
  let segs := [parsed.owner, parsed.repo, sha] ++
    (match truthy subpath with
     | some p => p.splitOn "/"
     | none => [])
  insertAt cache segs content

/-! ## Cache reclaimer (`cleanCache`, `getDirSize` in `src/fetcher.ts`) -/

mutual

/-- `getDirSize`: recursive byte size of a tree. -/
def dirSize : FsEntry → Nat
  | .file s => s
  | .dir cs => dirSizeChildren cs

def dirSizeChildren : List (String × FsEntry) → Nat
  | [] => 0
  | (_, e) :: rest => dirSize e + dirSizeChildren rest

end

/-- Commit SHAs referenced by any installed skill of any project: the
reachable set of the cache sweep. -/
def activeShas (state : SyncState) : List String :=
  (state.projects.map (fun p => p.2.skills.filterMap (fun q => q.2.commitSha))).flatten

/-- Sweep the commit-SHA entries of one repo directory: an entry whose name is
reachable is kept; an unreachable directory entry is measured and removed; a
non-directory entry is kept.  Returns the surviving children, the number of
removed entries, and the freed bytes. -/
def cleanRepoChildren (active : List String) :
    List (String × FsEntry) → List (String × FsEntry) × Nat × Nat
  | [] => ([], 0, 0)
  | (sha, e) :: rest =>
    let r := cleanRepoChildren active rest
    if active.contains sha then ((sha, e) :: r.1, r.2)
    else
      match e with
      | .file s => ((sha, .file s) :: r.1, r.2)
      | .dir cs => (r.1, r.2.1 + 1, r.2.2 + dirSize (.dir cs))

/-- Sweep the repo directories of one owner directory, pruning any repo
directory whose children all disappeared. -/
def cleanOwnerChildren (active : List String) :
    List (String × FsEntry) → List (String × FsEntry) × Nat × Nat
  | [] => ([], 0, 0)
  | (repo, e) :: rest =>
    let r := cleanOwnerChildren active rest
    match e with
    | .file s => ((repo, .file s) :: r.1, r.2)
    | .dir cs =>
      let c := cleanRepoChildren active cs
      if c.1.isEmpty then (r.1, r.2.1 + c.2.1, r.2.2 + c.2.2)
      else ((repo, .dir c.1) :: r.1, r.2.1 + c.2.1, r.2.2 + c.2.2)

/-- Sweep the owner directories of the `github` directory, pruning any owner
directory left empty. -/
def cleanGithubChildren (active : List String) :
    List (String × FsEntry) → List (String × FsEntry) × Nat × Nat
  | [] => ([], 0, 0)
  | (owner, e) :: rest =>
    let r := cleanGithubChildren active rest
    match e with
    | .file s => ((owner, .file s) :: r.1, r.2)
    | .dir cs =>
      let c := cleanOwnerChildren active cs
      if c.1.isEmpty then (r.1, r.2.1 + c.2.1, r.2.2 + c.2.2)
      else ((owner, .dir c.1) :: r.1, r.2.1 + c.2.1, r.2.2 + c.2.2)

/-- `cleanCache`: mark-reachable-then-sweep over the
`github/{owner}/{repo}/{sha}` hierarchy.  A missing `github` directory removes
nothing; a non-directory `github` path yields an empty walk.  Returns the
swept tree together with `{ removed, freedBytes }`. -/
def cleanCache (state : SyncState) (cache : Option FsEntry) :
    Option FsEntry × Nat × Nat :=
  match cache with
  | none => (none, 0, 0)
  | some (.file s) => (some (.file s), 0, 0)
  | some (.dir owners) =>
    let r := cleanGithubChildren (activeShas state) owners
    (some (.dir r.1), r.2)

/-! ## Sync orchestrator (`src/syncer.ts`) -/

/-- A filesystem mutation performed by one sync run.  `clone` stands for a
cache-miss fetch (temporary clone plus cache write inside `cloneAndExtract`);
`copy` for `copySkillToDir srcPath (join skillsPath name)`; `rewriteName` for
`rewriteSkillName` on the copied manifest; `removeDir` for
`removeSkillDir (join skillsPath name)`.  Read-only operations (existence
probes, `.gitignore` reads) are not mutations and are not recorded. -/
inductive Effect
  | clone (ref : SkillRef)
  | copy (src : String) (skillsPath : String) (name : String)
  | rewriteName (skillsPath : String) (name : String)
  | removeDir (skillsPath : String) (name : String)
deriving DecidableEq, Repr

/-- External collaborators of one sync run: the fetch contract, `fs.existsSync`
on destination paths, possible `copySkillToDir` failures, the `.gitignore`
content (`none` when unreadable), and the wall clock. -/
structure SyncEnv where
  fetch : SkillRef → Except String FetchOutcome
  fsExists : String → Bool
  copyError : String → String → Option String
  gitignoreLines : Option (List String)
  now : String

/-- `path.join(agentDir.skillsPath, name)`. -/
def destPath (skillsPath name : String) : String :=
  skillsPath ++ "/" ++ name

/-- The per-agent-directory loop of one skill's reconciliation: skip a
destination that exists but is unmanaged; in a dry run record the agent
without effects; otherwise copy (a failure aborts the skill, as the thrown
error is caught per skill) and rewrite the manifest name on dot-prefixed
install names.  Returns the reached agents, the effects, and the first copy
error. -/
def copyLoop (env : SyncEnv) (managed : List String) (dryRun : Bool)
    (name : String) (src : String) :
    List AgentDir → List AgentType × List Effect × Option String
  | [] => ([], [], none)
  | d :: rest =>
    let dest := destPath d.skillsPath name
    if env.fsExists dest && ¬ managed.contains name then
      copyLoop env managed dryRun name src rest
    else if dryRun then
      let r := copyLoop env managed dryRun name src rest
      (d.type :: r.1, r.2)
    else
      match env.copyError src dest with
      | some msg => ([], [Effect.copy src d.skillsPath name], some msg)
      | none =>
        let rewTr :=
          if name.data.contains '.' && env.fsExists (dest ++ "/SKILL.md") then
            [Effect.rewriteName d.skillsPath name]
          else []
        let r := copyLoop env managed dryRun name src rest
        (d.type :: r.1, Effect.copy src d.skillsPath name :: rewTr ++ r.2.1, r.2.2)

/-- The `InstalledSkill` entry recorded for a successfully synced skill. -/
def mkInstalled (skill : ResolvedSkill) (commitSha : Option String)
    (now : String) (agents : List AgentType) : InstalledSkill :=
  ⟨skill.ref.source, skill.ref.path, commitSha, now, agents, skill.type⟩

/-- How one skill's reconciliation ends: recorded with a fresh state entry,
failed with an error message, or skipped everywhere (no agent reached). -/
inductive SkillOutcome
  | ok (entry : InstalledSkill) (trace : List Effect)
  | failed (msg : String) (trace : List Effect)
  | skipped (trace : List Effect)
deriving DecidableEq

/-- The decision taken for one resolved skill, as a function of the
environment: fetch, then run the per-agent loop. -/
def skillOutcome (env : SyncEnv) (managed : List String)
    (agentDirs : List AgentDir) (dryRun : Bool) (skill : ResolvedSkill) :
    SkillOutcome :=
  match env.fetch skill.ref with
  | .error msg => .failed msg []
  | .ok o =>
    let fetchTr := if o.cloned then [Effect.clone skill.ref] else []
    match copyLoop env managed dryRun skill.installName o.path agentDirs with
    | (_, tr, some msg) => .failed msg (fetchTr ++ tr)
    | (agents, tr, none) =>
      if agents.isEmpty then .skipped (fetchTr ++ tr)
      else .ok (mkInstalled skill o.commitSha env.now agents) (fetchTr ++ tr)

/-- Accumulator of the per-skill reconciliation loop. -/
structure LoopAcc where
  synced : List String
  errors : List String
  newSkills : List (String × InstalledSkill)
  trace : List Effect

/-- One iteration of the per-skill loop: a successful skill is recorded in the
new map; a failed skill contributes an error tagged with its install name and
preserves its prior entry when one exists; a skipped skill records nothing. -/
def processSkill (env : SyncEnv) (priorSkills : List (String × InstalledSkill))
    (managed : List String) (agentDirs : List AgentDir) (dryRun : Bool)
    (acc : LoopAcc) (skill : ResolvedSkill) : LoopAcc :=
  match skillOutcome env managed agentDirs dryRun skill with
  | .ok entry tr =>
    { acc with
      synced := acc.synced ++ [skill.installName],
      newSkills := setKey acc.newSkills skill.installName entry,
      trace := acc.trace ++ tr }
  | .failed msg tr =>
    { acc with
      errors := acc.errors ++ [skill.installName ++ ": " ++ msg],
      newSkills :=
        match lookupKey priorSkills skill.installName with
        | some e => setKey acc.newSkills skill.installName e
        | none => acc.newSkills,
      trace := acc.trace ++ tr }
  | .skipped tr => { acc with trace := acc.trace ++ tr }

/-- Accumulator of the orphan loop. -/
structure OrphanAcc where
  removed : List String
  orphaned : List String
  newSkills : List (String × InstalledSkill)
  trace : List Effect

/-- One iteration of the orphan loop: a conditional orphan is removed from
every agent directory (unless dry run) and reported removed; any other orphan
is reported and its entry carried forward unchanged. -/
def processOrphan (priorSkills : List (String × InstalledSkill))
    (agentDirs : List AgentDir) (dryRun : Bool) (acc : OrphanAcc)
    (name : String) : OrphanAcc :=
  match lookupKey priorSkills name with
  | none => acc
  | some inst =>
    if inst.type = SkillType.conditional then
      let tr := if dryRun then []
        else agentDirs.map (fun d => Effect.removeDir d.skillsPath name)
      { acc with removed := acc.removed ++ [name], trace := acc.trace ++ tr }
    else
      { acc with
        orphaned := acc.orphaned ++ [name],
        newSkills := setKey acc.newSkills name inst }

/-- Strip trailing `/` characters from a `.gitignore` line
(the `replace(/\x2f+$/, "")` in `checkGitignore`). -/
def stripTrailingSlashes (s : String) : String :=
  s.dropRightWhile (fun c => c = '/')

/-- Does one `.gitignore` line cover a relative path (exact match or
prefix-with-slash match)? -/
def lineCovers (rel : String) (line : String) : Bool :=
  let clean := stripTrailingSlashes line
  rel == clean || (clean ++ "/").isPrefixOf rel

/-- `checkGitignore`: with no readable `.gitignore` every agent path is
uncovered; otherwise lines are trimmed, blanks and comments dropped, and a
path is reported when no line covers it. -/
def checkGitignore (gitignoreLines : Option (List String))
    (rels : List String) : List String :=
  match gitignoreLines with
  | none => rels
  | some rawLines =>
    let lines := (rawLines.map String.trim).filter
      (fun l => l ≠ "" && ¬ l.startsWith "#")
    rels.filter (fun rel => ¬ lines.any (lineCovers rel))

/-- Simplified model of Node's `path.relative(root, p)` for the in-repo case:
strip the `root/` lead of `p`.  Only feeds the advisory `.gitignore` report. -/
def pathRelative (root p : String) : String :=
  if p == root then ""
  else if (root ++ "/").isPrefixOf p then p.drop (root.length + 1)
  else p

/-- Result record of one sync run. -/
structure SyncResult where
  synced : List String
  removed : List String
  orphaned : List String
  errors : List String
  alreadyInSync : Bool
  gitignoreSuggestions : List String
  updatedState : SyncState
deriving DecidableEq, Repr

/-- `syncSkills`: fast-path exit when already in sync; otherwise reconcile
each resolved skill in order, handle orphans, compute the one-time
`.gitignore` advisory, and build the updated state (bumped `lastSync`, the
project's skill map replaced — or the input state returned untouched on a dry
run).  The second component is the run's filesystem-mutation trace. -/
def syncSkills (env : SyncEnv) (projectRoot : String)
    (resolvedSkills : List ResolvedSkill) (agentDirs : List AgentDir)
    (state : SyncState) (dryRun : Bool) : SyncResult × List Effect :=
  if isInSync state projectRoot resolvedSkills then
    (⟨[], [], [], [], true, [], state⟩, [])
  else
    let projectState := getProjectState state projectRoot
    let managed := keysOf projectState.skills
    let acc := resolvedSkills.foldl
      (processSkill env projectState.skills managed agentDirs dryRun)
      ⟨[], [], [], []⟩
    let orphanNames := getOrphanedSkills state projectRoot resolvedSkills
    let oacc := orphanNames.foldl
      (processOrphan projectState.skills agentDirs dryRun)
      ⟨[], [], acc.newSkills, acc.trace⟩
    let gitignoreSuggestions :=
      if ¬ projectState.gitignoreSuggested then
        checkGitignore env.gitignoreLines
          (agentDirs.map (fun d => pathRelative projectRoot d.skillsPath))
      else []
    let newProj : ProjectState :=
      ⟨if dryRun then projectState.skills else oacc.newSkills,
       projectState.gitignoreSuggested || ¬ gitignoreSuggestions.isEmpty⟩
    let updatedState : SyncState :=
      ⟨state.version, env.now, setKey state.projects projectRoot newProj⟩
    (⟨acc.synced, oacc.removed, oacc.orphaned, acc.errors, false,
      gitignoreSuggestions,
      if dryRun then state else updatedState⟩, oacc.trace)

/-! ## Basic lemmas about the association-list object model -/

theorem lookupKey_cons {α : Type} (k' : String) (v : α) (m : List (String × α))
    (k : String) :
    lookupKey ((k', v) :: m) k = if k' = k then some v else lookupKey m k := rfl

theorem lookupKey_eq_none_of_not_mem {α : Type} {m : List (String × α)}
    {k : String} (h : k ∉ keysOf m) : lookupKey m k = none := by
  induction m with
  | nil => rfl
  | cons p m ih =>
    simp only [keysOf, List.map_cons, List.mem_cons, not_or] at h
    obtain ⟨k', v⟩ := p
    rw [lookupKey_cons, if_neg (fun hc => h.1 hc.symm)]
    exact ih (by simpa [keysOf] using h.2)

theorem mem_keysOf_of_lookupKey {α : Type} {m : List (String × α)} {k : String}
    {v : α} (h : lookupKey m k = some v) : k ∈ keysOf m := by
  by_contra hk
  rw [lookupKey_eq_none_of_not_mem hk] at h
  exact Option.noConfusion h

theorem keysOf_setKey {α : Type} (m : List (String × α)) (k : String) (v : α) :
    keysOf (setKey m k v) = if k ∈ keysOf m then keysOf m else keysOf m ++ [k] := by
  induction m with
  | nil => simp [setKey, keysOf]
  | cons p m ih =>
    obtain ⟨k', w⟩ := p
    by_cases hk : k' = k
    · subst hk
      simp [setKey, keysOf]
    · rw [setKey, if_neg hk]
      show k' :: keysOf (setKey m k v) = _
      rw [ih]
      by_cases hm : k ∈ keysOf m
      · rw [if_pos hm,
          if_pos (show k ∈ keysOf ((k', w) :: m) from List.mem_cons_of_mem _ hm)]
        rfl
      · rw [if_neg hm, if_neg (show k ∉ keysOf ((k', w) :: m) from by
          simp only [keysOf, List.map_cons, List.mem_cons, not_or]
          exact ⟨fun hc => hk hc.symm, by simpa [keysOf] using hm⟩)]
        rfl

theorem lookupKey_setKey_self {α : Type} (m : List (String × α)) (k : String)
    (v : α) : lookupKey (setKey m k v) k = some v := by
  induction m with
  | nil => simp [setKey, lookupKey]
  | cons p m ih =>
    obtain ⟨k', w⟩ := p
    by_cases hk : k' = k
    · simp [setKey, hk, lookupKey]
    · rw [setKey, if_neg hk, lookupKey_cons, if_neg hk]
      exact ih

theorem lookupKey_setKey_ne {α : Type} (m : List (String × α)) {k' k : String}
    (v : α) (h : k' ≠ k) : lookupKey (setKey m k' v) k = lookupKey m k := by
  induction m with
  | nil => simp [setKey, lookupKey_cons, h]
  | cons p m ih =>
    obtain ⟨k₀, w⟩ := p
    by_cases hk : k₀ = k'
    · subst hk
      rw [setKey, if_pos rfl, lookupKey_cons, lookupKey_cons, if_neg h,
        if_neg (fun hc => h hc)]
    · rw [setKey, if_neg hk, lookupKey_cons, lookupKey_cons]
      by_cases hkk : k₀ = k
      · rw [if_pos hkk, if_pos hkk]
      · rw [if_neg hkk, if_neg hkk]
        exact ih

theorem keysOf_nodup_setKey {α : Type} {m : List (String × α)} (k : String)
    (v : α) (h : (keysOf m).Nodup) : (keysOf (setKey m k v)).Nodup := by
  rw [keysOf_setKey]
  by_cases hm : k ∈ keysOf m
  · rwa [if_pos hm]
  · rw [if_neg hm]
    simpa [List.nodup_append] using ⟨h, fun hc => hm hc⟩

/-! ## C9: `isInSync` ignores commit SHAs -/

/-- Two installed-skill entries that agree on everything except possibly the
`commitSha` field. -/
def sameButSha (a b : InstalledSkill) : Prop :=
  a.source = b.source ∧ a.path = b.path ∧ a.syncedAt = b.syncedAt ∧
    a.agents = b.agents ∧ a.type = b.type

instance : DecidablePred (fun p : InstalledSkill × InstalledSkill => sameButSha p.1 p.2) :=
  fun _ => by unfold sameButSha; infer_instance

/-- Two persisted states that differ only in `commitSha` fields: same shape,
same keys in the same order everywhere, and all other fields equal. -/
def statesSameButSha (s t : SyncState) : Prop :=
  s.version = t.version ∧ s.lastSync = t.lastSync ∧
  List.Forall₂ (fun x y : String × ProjectState => x.1 = y.1 ∧
    x.2.gitignoreSuggested = y.2.gitignoreSuggested ∧
    List.Forall₂ (fun a b : String × InstalledSkill =>
      a.1 = b.1 ∧ sameButSha a.2 b.2) x.2.skills y.2.skills)
    s.projects t.projects

theorem keysOf_eq_of_forall₂ {α β : Type}
    {R : (String × α) → (String × β) → Prop} {p : List (String × α)}
    {q : List (String × β)} (hR : ∀ a b, R a b → a.1 = b.1)
    (h : List.Forall₂ R p q) : keysOf p = keysOf q := by
  induction h with
  | nil => rfl
  | cons hab _ ih => simp [keysOf] at ih ⊢; exact ⟨hR _ _ hab, ih⟩

theorem lookupKey_forall₂ {α β : Type} {R : (String × α) → (String × β) → Prop}
    {p : List (String × α)} {q : List (String × β)}
    (hR : ∀ a b, R a b → a.1 = b.1) (h : List.Forall₂ R p q) (k : String) :
    (lookupKey p k = none ∧ lookupKey q k = none) ∨
    (∃ a b, R a b ∧ lookupKey p k = some a.2 ∧ lookupKey q k = some b.2) := by
  induction h with
  | nil => exact Or.inl ⟨rfl, rfl⟩
  | cons hab htail ih =>
    rename_i a b l₁ l₂
    obtain ⟨ka, va⟩ := a
    obtain ⟨kb, vb⟩ := b
    have hk2 : ka = kb := hR _ _ hab
    by_cases hk : ka = k
    · refine Or.inr ⟨(ka, va), (kb, vb), hab, ?_, ?_⟩
      · rw [lookupKey_cons, if_pos hk]
      · rw [lookupKey_cons, if_pos (hk2 ▸ hk)]
    · have hbk : ¬ kb = k := fun hc => hk (hk2 ▸ hc)
      rw [lookupKey_cons, if_neg hk, lookupKey_cons, if_neg hbk]
      exact ih

/-- C9.  The verdict of `isInSync` is independent of commit SHAs: two states
that differ only in `commitSha` fields of installed skills give the same
answer for every project root and resolved set. -/
theorem isInSync_sha_agnostic (s t : SyncState) (projectRoot : String)
    (resolvedSkills : List ResolvedSkill) (h : statesSameButSha s t) :
    isInSync s projectRoot resolvedSkills = isInSync t projectRoot resolvedSkills := by
  obtain ⟨-, -, hproj⟩ := h
  have hfst : ∀ (a b : String × ProjectState),
      (a.1 = b.1 ∧ a.2.gitignoreSuggested = b.2.gitignoreSuggested ∧
        List.Forall₂ (fun a b : String × InstalledSkill =>
          a.1 = b.1 ∧ sameButSha a.2 b.2) a.2.skills b.2.skills) → a.1 = b.1 :=
    fun _ _ hab => hab.1
  have hskfst : ∀ (a b : String × InstalledSkill),
      (a.1 = b.1 ∧ sameButSha a.2 b.2) → a.1 = b.1 := fun _ _ hab => hab.1
  have hps : List.Forall₂ (fun a b : String × InstalledSkill =>
      a.1 = b.1 ∧ sameButSha a.2 b.2)
      (getProjectState s projectRoot).skills
      (getProjectState t projectRoot).skills := by
    rcases lookupKey_forall₂ hfst hproj projectRoot with ⟨h₁, h₂⟩ | ⟨a, b, hab, h₁, h₂⟩
    · simp only [getProjectState, h₁, h₂, Option.getD_none, emptyProjectState]
      exact List.Forall₂.nil
    · simpa [getProjectState, h₁, h₂] using hab.2.2
  have hmatch : entryMatches (getProjectState s projectRoot).skills =
      entryMatches (getProjectState t projectRoot).skills := by
    funext r
    unfold entryMatches
    rcases lookupKey_forall₂ hskfst hps r.installName with ⟨h₁, h₂⟩ | ⟨a, b, hab, h₁, h₂⟩
    · rw [h₁, h₂]
    · rw [h₁, h₂]
      obtain ⟨hsrc, hpath, -⟩ := hab.2
      show (a.2.source == r.ref.source && a.2.path == r.ref.path) =
        (b.2.source == r.ref.source && b.2.path == r.ref.path)
      rw [hsrc, hpath]
  simp only [isInSync]
  rw [keysOf_eq_of_forall₂ hskfst hps, hmatch]

/-- Witness for `isInSync_sha_agnostic` at concrete states that differ only in
one `commitSha`. -/
theorem isInSync_sha_agnostic_witness :
    statesSameButSha
      ⟨1, "T", [("/p", ⟨[("tdd", ⟨"obra/tdd", none, some "sha1", "T", [.claude], .global⟩)], false⟩)]⟩
      ⟨1, "T", [("/p", ⟨[("tdd", ⟨"obra/tdd", none, none, "T", [.claude], .global⟩)], false⟩)]⟩ ∧
    isInSync
      ⟨1, "T", [("/p", ⟨[("tdd", ⟨"obra/tdd", none, some "sha1", "T", [.claude], .global⟩)], false⟩)]⟩
      "/p" [⟨⟨"obra/tdd", none⟩, .global, "tdd"⟩] =
    isInSync
      ⟨1, "T", [("/p", ⟨[("tdd", ⟨"obra/tdd", none, none, "T", [.claude], .global⟩)], false⟩)]⟩
      "/p" [⟨⟨"obra/tdd", none⟩, .global, "tdd"⟩] := by
  have h : statesSameButSha
      ⟨1, "T", [("/p", ⟨[("tdd", ⟨"obra/tdd", none, some "sha1", "T", [.claude], .global⟩)], false⟩)]⟩
      ⟨1, "T", [("/p", ⟨[("tdd", ⟨"obra/tdd", none, none, "T", [.claude], .global⟩)], false⟩)]⟩ := by
    refine ⟨rfl, rfl, ?_⟩
    refine List.Forall₂.cons ⟨rfl, rfl, ?_⟩ List.Forall₂.nil
    exact List.Forall₂.cons ⟨rfl, by exact ⟨rfl, rfl, rfl, rfl, rfl⟩⟩ List.Forall₂.nil
  exact ⟨h, isInSync_sha_agnostic _ _ _ _ h⟩

/-! ## C8: deduplication merges exactly the equal-key references -/

theorem mem_setKey {α : Type} {m : List (String × α)} {k : String} {v : α}
    {p : String × α} (h : p ∈ setKey m k v) : p = (k, v) ∨ p ∈ m := by
  induction m with
  | nil => simpa [setKey] using h
  | cons q m ih =>
    rw [setKey] at h
    by_cases hk : q.1 = k
    · obtain ⟨k', w⟩ := q
      rw [if_pos hk] at h
      rcases List.mem_cons.mp h with h | h
      · exact Or.inl h
      · exact Or.inr (List.mem_cons_of_mem _ h)
    · obtain ⟨k', w⟩ := q
      rw [if_neg hk] at h
      rcases List.mem_cons.mp h with h | h
      · exact Or.inr (h ▸ List.mem_cons_self _ _)
      · rcases ih h with h | h
        · exact Or.inl h
        · exact Or.inr (List.mem_cons_of_mem _ h)

/-- Invariant of the deduplication map: every binding's key is the identity
key of its value, and keys are unique. -/
def DedupInv (seen : List (String × TaggedSkill)) : Prop :=
  (∀ p ∈ seen, skillKey p.2.ref = p.1) ∧ (keysOf seen).Nodup

theorem lookupKey_isSome_of_mem {α : Type} {m : List (String × α)} {k : String}
    (h : k ∈ keysOf m) : ∃ v, lookupKey m k = some v := by
  induction m with
  | nil => simp [keysOf] at h
  | cons p m ih =>
    obtain ⟨k', v⟩ := p
    by_cases hk : k' = k
    · exact ⟨v, by rw [lookupKey_cons, if_pos hk]⟩
    · rw [lookupKey_cons, if_neg hk]
      refine ih ?_
      simp only [keysOf, List.map_cons, List.mem_cons] at h
      rcases h with h | h
      · exact absurd h.symm hk
      · simpa [keysOf] using h

theorem not_mem_keysOf_of_lookupKey_none {α : Type} {m : List (String × α)}
    {k : String} (h : lookupKey m k = none) : k ∉ keysOf m := by
  intro hc
  obtain ⟨v, hv⟩ := lookupKey_isSome_of_mem hc
  rw [hv] at h
  exact Option.noConfusion h

theorem keysOf_append {α : Type} (m₁ m₂ : List (String × α)) :
    keysOf (m₁ ++ m₂) = keysOf m₁ ++ keysOf m₂ := by
  simp [keysOf]

theorem dedupStep_eq_fresh {seen : List (String × TaggedSkill)}
    {x : TaggedSkill} (hl : lookupKey seen (skillKey x.ref) = none) :
    dedupStep seen x = seen ++ [(skillKey x.ref, x)] := by
  simp only [dedupStep]
  rw [hl]

theorem dedupStep_eq_overwrite {seen : List (String × TaggedSkill)}
    {x existing : TaggedSkill}
    (hl : lookupKey seen (skillKey x.ref) = some existing)
    (hp : typePriority existing.type < typePriority x.type) :
    dedupStep seen x = setKey seen (skillKey x.ref) x := by
  simp only [dedupStep]
  rw [hl]
  simp [hp]

theorem dedupStep_eq_keep {seen : List (String × TaggedSkill)}
    {x existing : TaggedSkill}
    (hl : lookupKey seen (skillKey x.ref) = some existing)
    (hp : ¬ typePriority existing.type < typePriority x.type) :
    dedupStep seen x = seen := by
  simp only [dedupStep]
  rw [hl]
  simp [hp]

theorem dedupStep_inv {seen : List (String × TaggedSkill)} (h : DedupInv seen)
    (x : TaggedSkill) : DedupInv (dedupStep seen x) := by
  obtain ⟨hkey, hnodup⟩ := h
  cases hl : lookupKey seen (skillKey x.ref) with
  | none =>
    rw [dedupStep_eq_fresh hl]
    refine ⟨?_, ?_⟩
    · intro p hp
      rcases List.mem_append.mp hp with hp | hp
      · exact hkey p hp
      · simp only [List.mem_singleton] at hp
        rw [hp]
    · rw [keysOf_append]
      have hnot := not_mem_keysOf_of_lookupKey_none hl
      rw [List.nodup_append]
      refine ⟨hnodup, by simp [keysOf], fun a ha hb => ?_⟩
      have hax : a = skillKey x.ref := by simpa [keysOf] using hb
      exact hnot (hax ▸ ha)
  | some existing =>
    by_cases hp : typePriority existing.type < typePriority x.type
    · rw [dedupStep_eq_overwrite hl hp]
      refine ⟨?_, ?_⟩
      · intro p hmem
        rcases mem_setKey hmem with h | h
        · rw [h]
        · exact hkey p h
      · exact keysOf_nodup_setKey _ _ hnodup
    · rw [dedupStep_eq_keep hl hp]
      exact ⟨hkey, hnodup⟩

theorem keysOf_dedupStep_mono {seen : List (String × TaggedSkill)}
    {k : String} (h : k ∈ keysOf seen) (x : TaggedSkill) :
    k ∈ keysOf (dedupStep seen x) := by
  cases hl : lookupKey seen (skillKey x.ref) with
  | none =>
    rw [dedupStep_eq_fresh hl, keysOf_append]
    exact List.mem_append_left _ h
  | some existing =>
    by_cases hp : typePriority existing.type < typePriority x.type
    · rw [dedupStep_eq_overwrite hl hp, keysOf_setKey]
      by_cases hm : skillKey x.ref ∈ keysOf seen
      · rwa [if_pos hm]
      · rw [if_neg hm]; exact List.mem_append_left _ h
    · rwa [dedupStep_eq_keep hl hp]

theorem keysOf_dedupStep_self (seen : List (String × TaggedSkill))
    (x : TaggedSkill) : skillKey x.ref ∈ keysOf (dedupStep seen x) := by
  cases hl : lookupKey seen (skillKey x.ref) with
  | none =>
    rw [dedupStep_eq_fresh hl, keysOf_append]
    exact List.mem_append_right _ (by simp [keysOf])
  | some existing =>
    have hmem : skillKey x.ref ∈ keysOf seen := mem_keysOf_of_lookupKey hl
    by_cases hp : typePriority existing.type < typePriority x.type
    · rw [dedupStep_eq_overwrite hl hp, keysOf_setKey, if_pos hmem]
      exact hmem
    · rwa [dedupStep_eq_keep hl hp]

theorem keysOf_foldl_dedup_mono {l : List TaggedSkill}
    {seen : List (String × TaggedSkill)} {k : String} (h : k ∈ keysOf seen) :
    k ∈ keysOf (l.foldl dedupStep seen) := by
  induction l generalizing seen with
  | nil => exact h
  | cons x l ih => exact ih (keysOf_dedupStep_mono h x)

theorem foldl_dedup_inv {l : List TaggedSkill}
    {seen : List (String × TaggedSkill)} (h : DedupInv seen) :
    DedupInv (l.foldl dedupStep seen) := by
  induction l generalizing seen with
  | nil => exact h
  | cons x l ih => exact ih (dedupStep_inv h x)

theorem skillKey_mem_foldl {l : List TaggedSkill} {s : TaggedSkill}
    (hs : s ∈ l) (seen : List (String × TaggedSkill)) :
    skillKey s.ref ∈ keysOf (l.foldl dedupStep seen) := by
  induction l generalizing seen with
  | nil => cases hs
  | cons x l ih =>
    rw [List.foldl_cons]
    rcases List.mem_cons.mp hs with h | h
    · subst h
      exact keysOf_foldl_dedup_mono (keysOf_dedupStep_self seen s)
    · exact ih h _

/-- C8 counterexample.  An absent `path` and an explicitly empty `path` are
not byte-equal, yet both contribute `""` to the identity key
(`ref.path ?? ""`), so the two references are merged into one entry. -/
theorem deduplicateSkills_byte_equal_counterexample :
    deduplicateSkills
      [⟨⟨"a/b", none⟩, .global⟩, ⟨⟨"a/b", some ""⟩, .global⟩] =
      [⟨⟨"a/b", none⟩, .global⟩] ∧
    (SkillRef.mk "a/b" none) ≠ (SkillRef.mk "a/b" (some "")) := by
  exact ⟨rfl, by decide⟩

/-- C8 (amended).  `deduplicateSkills` merges two references exactly when
their identity keys `source::(path ?? "")` agree: the output carries pairwise
distinct keys, and every input reference is represented by an output entry
with its key (so two inputs with different keys survive as two distinct
entries). -/
theorem deduplicateSkills_key_partition (skills : List TaggedSkill) :
    List.Pairwise (fun s t => skillKey s.ref ≠ skillKey t.ref)
      (deduplicateSkills skills) ∧
    ∀ s ∈ skills, ∃ t ∈ deduplicateSkills skills,
      skillKey t.ref = skillKey s.ref := by
  have hinv : DedupInv (skills.foldl dedupStep []) :=
    foldl_dedup_inv ⟨by simp, by simp [keysOf]⟩
  constructor
  · unfold deduplicateSkills
    rw [List.pairwise_map]
    have hnd := hinv.2
    rw [show keysOf (skills.foldl dedupStep []) =
        (skills.foldl dedupStep []).map (fun p => skillKey p.2.ref) from
      List.map_congr_left (fun p hp => (hinv.1 p hp).symm)] at hnd
    have hnd' : List.Pairwise (fun a b : String => a ≠ b)
        ((skills.foldl dedupStep []).map (fun p => skillKey p.2.ref)) := hnd
    exact List.pairwise_map.mp hnd'
  · intro s hs
    have hk : skillKey s.ref ∈ keysOf (skills.foldl dedupStep []) :=
      skillKey_mem_foldl hs []
    obtain ⟨p, hp, hpk⟩ := List.mem_map.mp hk
    exact ⟨p.2, List.mem_map.mpr ⟨p, hp, rfl⟩, by rw [hinv.1 p hp, hpk]⟩

/-- Witness for `deduplicateSkills_key_partition` at a concrete two-element
input with distinct keys. -/
theorem deduplicateSkills_key_partition_witness :
    List.Pairwise (fun s t => skillKey s.ref ≠ skillKey t.ref)
      (deduplicateSkills
        [⟨⟨"a/b", none⟩, .global⟩, ⟨⟨"c/d", none⟩, .conditional⟩]) ∧
    ∃ t ∈ deduplicateSkills
        [⟨⟨"a/b", none⟩, .global⟩, ⟨⟨"c/d", none⟩, .conditional⟩],
      skillKey t.ref = skillKey (TaggedSkill.mk ⟨"c/d", none⟩ .conditional).ref :=
  ⟨(deduplicateSkills_key_partition _).1,
   (deduplicateSkills_key_partition _).2 ⟨⟨"c/d", none⟩, .conditional⟩ (by simp)⟩

/-! ## C2: install-name distinctness out of `resolveInstallNames` -/

theorem except_bind_ok {ε α β : Type} {x : Except ε α} {f : α → Except ε β}
    {b : β} : (x >>= f) = .ok b ↔ ∃ a, x = .ok a ∧ f a = .ok b := by
  cases x with
  | error e => simp [Bind.bind, Except.bind]
  | ok a => simp [Bind.bind, Except.bind]

theorem except_map_ok {ε α β : Type} {x : Except ε α} {f : α → β} {b : β} :
    x.map f = .ok b ↔ ∃ a, x = .ok a ∧ f a = b := by
  cases x with
  | error e => simp [Except.map]
  | ok a => simp [Except.map]

theorem mapM_ok_forall₂ {ε α β : Type} {f : α → Except ε β} {l : List α}
    {out : List β} (h : l.mapM f = .ok out) :
    List.Forall₂ (fun a b => f a = .ok b) l out := by
  induction l generalizing out with
  | nil =>
    simp only [List.mapM_nil, pure, Except.pure] at h
    cases h
    exact List.Forall₂.nil
  | cons x l ih =>
    rw [List.mapM_cons] at h
    rw [except_bind_ok] at h
    obtain ⟨y, hy, h⟩ := h
    rw [except_bind_ok] at h
    obtain ⟨ys, hys, h⟩ := h
    simp only [pure, Except.pure] at h
    cases h
    exact List.Forall₂.cons hy (ih hys)

/-- Split a list at the unique occurrence of a character. -/
theorem append_cons_unique {c : Char} {l₁ r₁ l₂ r₂ : List Char}
    (h : l₁ ++ c :: r₁ = l₂ ++ c :: r₂) (h₁ : c ∉ l₁) (h₂ : c ∉ l₂) :
    l₁ = l₂ ∧ r₁ = r₂ := by
  induction l₁ generalizing l₂ with
  | nil =>
    cases l₂ with
    | nil => simpa using h
    | cons d l₂ =>
      simp only [List.nil_append, List.cons_append, List.cons.injEq] at h
      exact absurd (h.1 ▸ List.mem_cons_self _ _) h₂
  | cons a l₁ ih =>
    cases l₂ with
    | nil =>
      simp only [List.cons_append, List.nil_append, List.cons.injEq] at h
      exact absurd (h.1 ▸ List.mem_cons_self _ _) h₁
    | cons d l₂ =>
      simp only [List.cons_append, List.cons.injEq] at h
      have := ih (h.2) (fun hc => h₁ (List.mem_cons_of_mem _ hc))
        (fun hc => h₂ (List.mem_cons_of_mem _ hc))
      exact ⟨by rw [h.1, this.1], this.2⟩

/-- Concatenations `owner ++ "." ++ base` with dot-free parts are injective. -/
theorem dot_concat_inj {o₁ k₁ o₂ k₂ : String}
    (ho₁ : '.' ∉ o₁.data) (ho₂ : '.' ∉ o₂.data)
    (h : o₁ ++ "." ++ k₁ = o₂ ++ "." ++ k₂) : o₁ = o₂ ∧ k₁ = k₂ := by
  have hdata : o₁.data ++ '.' :: k₁.data = o₂.data ++ '.' :: k₂.data := by
    have := congrArg String.data h
    simpa [String.data_append] using this
  obtain ⟨ho, hk⟩ := append_cons_unique hdata ho₁ ho₂
  exact ⟨String.ext ho, String.ext hk⟩

/-- A dot-free string never equals a dotted concatenation. -/
theorem ne_dot_concat {k o k' : String} (hk : '.' ∉ k.data) :
    k ≠ o ++ "." ++ k' := by
  intro h
  apply hk
  rw [h]
  simp [String.data_append]

theorem lookupKey_mem {α : Type} {m : List (String × α)} {k : String} {v : α}
    (h : lookupKey m k = some v) : (k, v) ∈ m := by
  induction m with
  | nil => exact Option.noConfusion h
  | cons p m ih =>
    obtain ⟨k', w⟩ := p
    by_cases hk : k' = k
    · rw [lookupKey_cons, if_pos hk] at h
      cases h
      subst hk
      exact List.mem_cons_self _ _
    · rw [lookupKey_cons, if_neg hk] at h
      exact List.mem_cons_of_mem _ (ih h)

theorem groupAdd_fresh {α : Type} {groups : List (String × List α)} {k : String}
    (v : α) (hl : lookupKey groups k = none) :
    groupAdd groups k v = groups ++ [(k, [v])] := by
  unfold groupAdd
  rw [hl]

theorem groupAdd_found {α : Type} {groups : List (String × List α)} {k : String}
    {g : List α} (v : α) (hl : lookupKey groups k = some g) :
    groupAdd groups k v = setKey groups k (g ++ [v]) := by
  unfold groupAdd
  rw [hl]

theorem forall₂_mem_right {α β : Type} {R : α → β → Prop} {l₁ : List α}
    {l₂ : List β} (h : List.Forall₂ R l₁ l₂) {b : β} (hb : b ∈ l₂) :
    ∃ a ∈ l₁, R a b := by
  induction h with
  | nil => cases hb
  | cons hab htail ih =>
    rcases List.mem_cons.mp hb with hb | hb
    · exact ⟨_, List.mem_cons_self _ _, hb ▸ hab⟩
    · obtain ⟨a, ha, hr⟩ := ih hb
      exact ⟨a, List.mem_cons_of_mem _ ha, hr⟩

theorem pairwise_of_forall₂_mem {α β : Type} {R : α → β → Prop}
    {P : α → α → Prop} {Q : β → β → Prop} {l₁ : List α} {l₂ : List β}
    (h : List.Forall₂ R l₁ l₂) (hp : List.Pairwise P l₁)
    (himp : ∀ a a' b b', a ∈ l₁ → b ∈ l₁ → R a a' → R b b' → P a b → Q a' b') :
    List.Pairwise Q l₂ := by
  induction h with
  | nil => exact List.Pairwise.nil
  | cons hab htail ih =>
    rename_i a a' l₁' l₂'
    rw [List.pairwise_cons] at hp ⊢
    refine ⟨fun b' hb' => ?_, ih hp.2 (fun x x' y y' hx hy => himp x x' y y'
      (List.mem_cons_of_mem _ hx) (List.mem_cons_of_mem _ hy))⟩
    obtain ⟨b, hb, hrb⟩ := forall₂_mem_right htail hb'
    exact himp a a' b b' (List.mem_cons_self _ _) (List.mem_cons_of_mem _ hb)
      hab hrb (hp.1 b hb)

/-- The name-derivation identity of a reference: the parsed owner (when the
source parses) and the derived base name (when derivation succeeds).
Distinct identities are what collision prefixing can keep apart. -/
def identOf (s : TaggedSkill) : Option String × Option String :=
  ((parseSource s.ref.source).toOption.map (·.owner),
   (deriveSkillName s.ref).toOption)

/-- Invariant of the base-name grouping fold in `resolveInstallNames`,
relative to the original `withNames` list and the still-unprocessed suffix
`ws`: group keys are unique, groups are nonempty, every member is recorded
with its group's key in the original list, members are pairwise
identity-distinct, and every member is identity-distinct from everything
still to come. -/
def GroupsInv (origin ws : List (TaggedSkill × String))
    (groups : List (String × List TaggedSkill)) : Prop :=
  (keysOf groups).Nodup ∧
  ∀ p ∈ groups, p.2 ≠ [] ∧ (∀ e ∈ p.2, (e, p.1) ∈ origin) ∧
    List.Pairwise (fun a b => identOf a ≠ identOf b) p.2 ∧
    (∀ e ∈ p.2, ∀ w ∈ ws, identOf e ≠ identOf w.1)

theorem groups_inv_fold (origin : List (TaggedSkill × String)) :
    ∀ (ws : List (TaggedSkill × String))
      (groups : List (String × List TaggedSkill)),
    GroupsInv origin ws groups →
    (∀ w ∈ ws, w ∈ origin) →
    List.Pairwise (fun a b => identOf a.1 ≠ identOf b.1) ws →
    GroupsInv origin []
      (ws.foldl (fun gs p => groupAdd gs p.2 p.1) groups) := by
  intro ws
  induction ws with
  | nil =>
    intro groups hinv _ _
    exact hinv
  | cons w ws ih =>
    intro groups hinv hmem hpw
    obtain ⟨x, n⟩ := w
    rw [List.foldl_cons]
    rw [List.pairwise_cons] at hpw
    refine ih _ ?_ (fun w hw => hmem w (List.mem_cons_of_mem _ hw)) hpw.2
    obtain ⟨hkeys, hgroups⟩ := hinv
    cases hl : lookupKey groups n with
    | none =>
      rw [groupAdd_fresh x hl]
      refine ⟨?_, ?_⟩
      · rw [keysOf_append, List.nodup_append]
        refine ⟨hkeys, by simp [keysOf], fun a ha hb => ?_⟩
        have han : a = n := by simpa [keysOf] using hb
        exact not_mem_keysOf_of_lookupKey_none hl (han ▸ ha)
      · intro p hp
        rcases List.mem_append.mp hp with hp | hp
        · obtain ⟨hne, hor, hpw', hfut⟩ := hgroups p hp
          exact ⟨hne, hor, hpw', fun e he w' hw' =>
            hfut e he w' (List.mem_cons_of_mem _ hw')⟩
        · simp only [List.mem_singleton] at hp
          subst hp
          refine ⟨by simp, ?_, ?_, ?_⟩
          · intro e he
            simp only [List.mem_singleton] at he
            subst he
            exact hmem (e, n) (List.mem_cons_self _ _)
          · simp
          · intro e he w' hw'
            simp only [List.mem_singleton] at he
            subst he
            exact hpw.1 w' hw'
    | some g =>
      rw [groupAdd_found x hl]
      have hgmem : (n, g) ∈ groups := lookupKey_mem hl
      obtain ⟨hgne, hgor, hgpw, hgfut⟩ := hgroups (n, g) hgmem
      refine ⟨?_, ?_⟩
      · rw [keysOf_setKey, if_pos (mem_keysOf_of_lookupKey hl)]
        exact hkeys
      · intro p hp
        rcases mem_setKey hp with hp | hp
        · subst hp
          refine ⟨by simp, ?_, ?_, ?_⟩
          · intro e he
            rcases List.mem_append.mp he with he | he
            · exact hgor e he
            · simp only [List.mem_singleton] at he
              subst he
              exact hmem (e, n) (List.mem_cons_self _ _)
          · rw [List.pairwise_append]
            refine ⟨hgpw, by simp, fun a ha b hb => ?_⟩
            simp only [List.mem_singleton] at hb
            subst hb
            exact hgfut a ha (b, n) (List.mem_cons_self _ _)
          · intro e he w' hw'
            rcases List.mem_append.mp he with he | he
            · exact hgfut e he w' (List.mem_cons_of_mem _ hw')
            · simp only [List.mem_singleton] at he
              subst he
              exact hpw.1 w' hw'
        · obtain ⟨hne, hor, hpw', hfut⟩ := hgroups p hp
          exact ⟨hne, hor, hpw', fun e he w' hw' =>
            hfut e he w' (List.mem_cons_of_mem _ hw')⟩

/-- The shape of one group's emitted install names: unique, anchored at a
dot-free base name, and either the bare base name (singleton) or dotted
owner-prefixed forms (collision). -/
def GroupNamesOk (k : String) (names : List String) : Prop :=
  names.Nodup ∧ '.' ∉ k.data ∧
  (names = [k] ∨ ∀ x ∈ names, ∃ o, '.' ∉ o.data ∧ x = o ++ "." ++ k)

theorem group_out_names {k : String} {g : List TaggedSkill}
    {lst : List ResolvedSkill} (hne : g ≠ [])
    (hfacts : ∀ e ∈ g, deriveSkillName e.ref = .ok k ∧ '.' ∉ k.data ∧
      (∀ p, parseSource e.ref.source = .ok p → '.' ∉ p.owner.data))
    (hpw : List.Pairwise (fun a b => identOf a ≠ identOf b) g)
    (hmatch : resolveGroup (k, g) = Except.ok lst) :
    GroupNamesOk k (lst.map (·.installName)) := by
  cases g with
  | nil => exact absurd rfl hne
  | cons e₁ tail =>
    cases tail with
    | nil =>
      have hlst : lst = [ResolvedSkill.mk e₁.ref e₁.type k] := by
        have : resolveGroup (k, [e₁]) =
            Except.ok [ResolvedSkill.mk e₁.ref e₁.type k] := rfl
        rw [this] at hmatch
        cases hmatch
        rfl
      subst hlst
      exact ⟨by simp, (hfacts e₁ (List.mem_cons_self _ _)).2.1, Or.inl rfl⟩
    | cons e₂ rest =>
      have hmm : (e₁ :: e₂ :: rest).mapM (fun e =>
          (parseSource e.ref.source).map
            (fun parsed => ResolvedSkill.mk e.ref e.type (parsed.owner ++ "." ++ k)))
          = Except.ok lst := hmatch
      have hF := mapM_ok_forall₂ hmm
      have hunpack : ∀ (e : TaggedSkill) (r : ResolvedSkill),
          ((parseSource e.ref.source).map
          (fun parsed => ResolvedSkill.mk e.ref e.type (parsed.owner ++ "." ++ k))
            = Except.ok r) →
          ∃ p, parseSource e.ref.source = .ok p ∧
            r = ResolvedSkill.mk e.ref e.type (p.owner ++ "." ++ k) := by
        intro e r hr
        rw [except_map_ok] at hr
        obtain ⟨p, hp, hr⟩ := hr
        exact ⟨p, hp, hr.symm⟩
      refine ⟨?_, (hfacts e₁ (List.mem_cons_self _ _)).2.1, Or.inr ?_⟩
      · have hpair : List.Pairwise
            (fun r₁ r₂ : ResolvedSkill => r₁.installName ≠ r₂.installName) lst := by
          refine pairwise_of_forall₂_mem hF hpw ?_
          intro a a' b b' ha hb hra hrb hab
          obtain ⟨pa, hpa, ha'⟩ := hunpack a a' hra
          obtain ⟨pb, hpb, hb'⟩ := hunpack b b' hrb
          subst ha'
          subst hb'
          intro hc
          have hoa : '.' ∉ pa.owner.data := (hfacts a ha).2.2 pa hpa
          have hob : '.' ∉ pb.owner.data := (hfacts b hb).2.2 pb hpb
          have hoeq := dot_concat_inj hoa hob hc
          apply hab
          unfold identOf
          rw [hpa, hpb, (hfacts a ha).1, (hfacts b hb).1]
          simp [Except.toOption, hoeq.1]
        have : List.Pairwise (fun a b : String => a ≠ b)
            (lst.map (·.installName)) := List.pairwise_map.mpr hpair
        exact this
      · intro x hx
        obtain ⟨r, hr, hrx⟩ := List.mem_map.mp hx
        obtain ⟨e, he, hre⟩ := forall₂_mem_right hF hr
        obtain ⟨p, hp, hre'⟩ := hunpack e r hre
        exact ⟨p.owner, (hfacts e he).2.2 p hp, by rw [← hrx, hre']⟩

theorem groupNames_disjoint {k₁ k₂ : String} {n₁ n₂ : List String}
    (h₁ : GroupNamesOk k₁ n₁) (h₂ : GroupNamesOk k₂ n₂) (hk : k₁ ≠ k₂) :
    List.Disjoint n₁ n₂ := by
  intro x hx₁ hx₂
  have hx₁' : x = k₁ ∨ ∃ o, '.' ∉ o.data ∧ x = o ++ "." ++ k₁ := by
    rcases h₁.2.2 with h | h
    · exact Or.inl (by simpa [h] using hx₁)
    · exact Or.inr (h x hx₁)
  have hx₂' : x = k₂ ∨ ∃ o, '.' ∉ o.data ∧ x = o ++ "." ++ k₂ := by
    rcases h₂.2.2 with h | h
    · exact Or.inl (by simpa [h] using hx₂)
    · exact Or.inr (h x hx₂)
  rcases hx₁' with rfl | ⟨o₁, ho₁, he₁⟩
  · rcases hx₂' with he | ⟨o₂, ho₂, he₂⟩
    · exact hk he
    · exact ne_dot_concat h₁.2.1 he₂
  · rcases hx₂' with he | ⟨o₂, ho₂, he₂⟩
    · exact ne_dot_concat h₂.2.1 (by rw [← he]; exact he₁)
    · refine hk (dot_concat_inj ho₁ ho₂ ?_).2
      rw [← he₁, ← he₂]

/-- C2 counterexample.  Two deduplicated identities with the same owner and
the same base name — here `obra/tdd` pinned at two different refs — collide,
and owner prefixing assigns both the install name `obra.tdd`, so the resolved
list does not have pairwise-distinct install names. -/
theorem resolveSkills_dup_installName_counterexample :
    resolveSkills ⟨id, id⟩
      ⟨some [⟨"obra/tdd", none⟩, ⟨"obra/tdd@v2", none⟩], none, none⟩ "/p" =
      Except.ok
        [⟨⟨"obra/tdd", none⟩, .global, "obra.tdd"⟩,
         ⟨⟨"obra/tdd@v2", none⟩, .global, "obra.tdd"⟩] ∧
    ¬ (([⟨⟨"obra/tdd", none⟩, .global, "obra.tdd"⟩,
         ⟨⟨"obra/tdd@v2", none⟩, .global, "obra.tdd"⟩] :
        List ResolvedSkill).map (·.installName)).Nodup := by
  exact ⟨rfl, by decide⟩

/-- C2 (amended).  `resolveInstallNames` yields pairwise-distinct install
names provided (i) any two inputs have distinct name-derivation identities
(owner, base name) — in particular, identities colliding on a base name have
distinct owners — and (ii) no derived base name or parsed owner contains a
dot, which keeps owner-prefixed names of one group from colliding with other
groups' names. -/
theorem resolveInstallNames_nodup (skills : List TaggedSkill)
    (out : List ResolvedSkill)
    (hok : resolveInstallNames skills = .ok out)
    (hid : List.Pairwise (fun s t => identOf s ≠ identOf t) skills)
    (hdotBase : ∀ s ∈ skills, ∀ n, deriveSkillName s.ref = .ok n → '.' ∉ n.data)
    (hdotOwner : ∀ s ∈ skills, ∀ p, parseSource s.ref.source = .ok p →
      '.' ∉ p.owner.data) :
    (out.map (·.installName)).Nodup := by
  unfold resolveInstallNames at hok
  rw [except_bind_ok] at hok
  obtain ⟨withNames, hwn, hok⟩ := hok
  rw [except_bind_ok] at hok
  obtain ⟨resolvedGroups, hrg, hok⟩ := hok
  have hout : out = resolvedGroups.flatten := by
    simp only [pure, Except.pure] at hok
    cases hok
    rfl
  subst hout
  have hwF := mapM_ok_forall₂ hwn
  have horigin : ∀ w ∈ withNames,
      w.1 ∈ skills ∧ deriveSkillName w.1.ref = .ok w.2 := by
    intro w hw
    obtain ⟨s, hs, hr⟩ := forall₂_mem_right hwF hw
    rw [except_map_ok] at hr
    obtain ⟨n, hn, hw'⟩ := hr
    rw [← hw']
    exact ⟨hs, hn⟩
  have hpwWN : List.Pairwise (fun a b => identOf a.1 ≠ identOf b.1) withNames := by
    refine pairwise_of_forall₂_mem hwF hid ?_
    intro a a' b b' _ _ hra hrb hp
    rw [except_map_ok] at hra hrb
    obtain ⟨na, -, ha'⟩ := hra
    obtain ⟨nb, -, hb'⟩ := hrb
    rw [← ha', ← hb']
    exact hp
  have hginv := groups_inv_fold withNames withNames []
    ⟨by simp [keysOf], by simp⟩ (fun w hw => hw) hpwWN
  set groups := withNames.foldl (fun gs p => groupAdd gs p.2 p.1) [] with hgroups
  have hrgF := mapM_ok_forall₂ hrg
  have hgnames : ∀ pr ∈ groups, ∀ lst, resolveGroup pr = Except.ok lst →
      GroupNamesOk pr.1 (lst.map (·.installName)) := by
    intro pr hpr lst hlst
    obtain ⟨hne, hor, hpw', -⟩ := hginv.2 pr hpr
    refine group_out_names hne ?_ hpw' hlst
    intro e he
    obtain ⟨hsk, hder⟩ := horigin (e, pr.1) (hor e he)
    exact ⟨hder, hdotBase e hsk pr.1 hder, fun p hp => hdotOwner e hsk p hp⟩
  rw [List.map_flatten, List.nodup_flatten]
  constructor
  · intro l hl
    obtain ⟨lst, hlst, hlm⟩ := List.mem_map.mp hl
    obtain ⟨pr, hpr, hrel⟩ := forall₂_mem_right hrgF hlst
    rw [← hlm]
    exact (hgnames pr hpr lst hrel).1
  · rw [List.pairwise_map]
    have hpkeys : List.Pairwise
        (fun g₁ g₂ : String × List TaggedSkill => g₁.1 ≠ g₂.1) groups := by
      have := hginv.1
      exact List.pairwise_map.mp this
    refine pairwise_of_forall₂_mem hrgF hpkeys ?_
    intro g₁ l₁ g₂ l₂ h₁ h₂ hr₁ hr₂ hkne
    exact groupNames_disjoint (hgnames g₁ h₁ l₁ hr₁) (hgnames g₂ h₂ l₂ hr₂) hkne

/-- Witness for `resolveInstallNames_nodup` at a concrete two-owner
collision. -/
theorem resolveInstallNames_nodup_witness :
    ∃ out, resolveInstallNames
      [⟨⟨"obra/tdd", none⟩, .global⟩, ⟨⟨"acme/tdd", none⟩, .global⟩] =
        Except.ok out ∧ (out.map (·.installName)).Nodup := by
  have hok : resolveInstallNames
      [⟨⟨"obra/tdd", none⟩, .global⟩, ⟨⟨"acme/tdd", none⟩, .global⟩] =
      Except.ok [⟨⟨"obra/tdd", none⟩, .global, "obra.tdd"⟩,
                 ⟨⟨"acme/tdd", none⟩, .global, "acme.tdd"⟩] := rfl
  refine ⟨_, hok, ?_⟩
  refine resolveInstallNames_nodup _ _ hok (by decide) ?_ ?_
  · intro s hs n hn
    fin_cases hs
    · rw [show deriveSkillName (SkillRef.mk "obra/tdd" none) = .ok "tdd" from rfl]
        at hn
      cases hn
      decide
    · rw [show deriveSkillName (SkillRef.mk "acme/tdd" none) = .ok "tdd" from rfl]
        at hn
      cases hn
      decide
  · intro s hs p hp
    fin_cases hs
    · rw [show parseSource "obra/tdd" = .ok ⟨"obra", "tdd", none⟩ from rfl] at hp
      cases hp
      decide
    · rw [show parseSource "acme/tdd" = .ok ⟨"acme", "tdd", none⟩ from rfl] at hp
      cases hp
      decide

/-! ## C7: the cache reclaimer removes exactly the unreachable SHA directories

The `spec…` definitions below follow the specification's words — "any sha
directory not in the reachable set is measured (recursive byte size) and
deleted; any owner/repo directory left empty afterward is pruned; zero
entries are removed if the cache directory does not exist" — and are proved
equal to the walk implemented by `cleanCache`. -/

/-- The stale entries of a repo directory: commit-SHA subdirectories whose
name is not reachable from the persisted state. -/
def staleShas (active : List String) (shas : List (String × FsEntry)) :
    List (String × FsEntry) :=
  shas.filter (fun p => ¬ active.contains p.1 && p.2.isDir)

/-- The surviving entries of a repo directory: reachable SHAs and
non-directory entries. -/
def sweptShas (active : List String) (shas : List (String × FsEntry)) :
    List (String × FsEntry) :=
  shas.filter (fun p => active.contains p.1 || ¬ p.2.isDir)

def specRepoCount (active : List String) (shas : List (String × FsEntry)) : Nat :=
  (staleShas active shas).length

def specRepoSize (active : List String) (shas : List (String × FsEntry)) : Nat :=
  ((staleShas active shas).map (fun p => dirSize p.2)).sum

/-- The surviving entries of an owner directory, with emptied repo
directories pruned. -/
def specOwnerChildren (active : List String)
    (repos : List (String × FsEntry)) : List (String × FsEntry) :=
  repos.filterMap (fun p => match p.2 with
    | .file s => some (p.1, .file s)
    | .dir shas =>
      if (sweptShas active shas).isEmpty then none
      else some (p.1, .dir (sweptShas active shas)))

def specOwnerCount (active : List String)
    (repos : List (String × FsEntry)) : Nat :=
  (repos.map (fun p => match p.2 with
    | .file _ => 0
    | .dir shas => specRepoCount active shas)).sum

def specOwnerSize (active : List String)
    (repos : List (String × FsEntry)) : Nat :=
  (repos.map (fun p => match p.2 with
    | .file _ => 0
    | .dir shas => specRepoSize active shas)).sum

/-- The surviving entries of the `github` directory, with emptied owner
directories pruned. -/
def specGithubChildren (active : List String)
    (owners : List (String × FsEntry)) : List (String × FsEntry) :=
  owners.filterMap (fun p => match p.2 with
    | .file s => some (p.1, .file s)
    | .dir repos =>
      if (specOwnerChildren active repos).isEmpty then none
      else some (p.1, .dir (specOwnerChildren active repos)))

def specGithubCount (active : List String)
    (owners : List (String × FsEntry)) : Nat :=
  (owners.map (fun p => match p.2 with
    | .file _ => 0
    | .dir repos => specOwnerCount active repos)).sum

def specGithubSize (active : List String)
    (owners : List (String × FsEntry)) : Nat :=
  (owners.map (fun p => match p.2 with
    | .file _ => 0
    | .dir repos => specOwnerSize active repos)).sum

/-- Declarative description of one reclaim pass: a missing cache directory
removes nothing, and otherwise exactly the unreachable commit-SHA directories
disappear, counted and measured, with emptied owner/repo directories
pruned. -/
def specCleanCache (state : SyncState) (cache : Option FsEntry) :
    Option FsEntry × Nat × Nat :=
  match cache with
  | none => (none, 0, 0)
  | some (.file s) => (some (.file s), 0, 0)
  | some (.dir owners) =>
    (some (.dir (specGithubChildren (activeShas state) owners)),
     specGithubCount (activeShas state) owners,
     specGithubSize (activeShas state) owners)

theorem cleanRepoChildren_eq (active : List String)
    (shas : List (String × FsEntry)) :
    cleanRepoChildren active shas =
      (sweptShas active shas, specRepoCount active shas,
       specRepoSize active shas) := by
  induction shas with
  | nil => rfl
  | cons p rest ih =>
    obtain ⟨sha, e⟩ := p
    simp only [cleanRepoChildren]
    rw [ih]
    by_cases hc : active.contains sha
    · have hc' : sha ∈ active := by simpa using hc
      simp [sweptShas, specRepoCount, specRepoSize, staleShas, hc, hc',
        List.filter_cons]
    · have hc' : sha ∉ active := by simpa using hc
      cases e with
      | file s =>
        simp [sweptShas, specRepoCount, specRepoSize, staleShas, hc, hc',
          List.filter_cons, FsEntry.isDir]
      | dir cs =>
        simp [sweptShas, specRepoCount, specRepoSize, staleShas, hc, hc',
          List.filter_cons, FsEntry.isDir, Nat.add_comm]

theorem cleanOwnerChildren_eq (active : List String)
    (repos : List (String × FsEntry)) :
    cleanOwnerChildren active repos =
      (specOwnerChildren active repos, specOwnerCount active repos,
       specOwnerSize active repos) := by
  induction repos with
  | nil => rfl
  | cons p rest ih =>
    obtain ⟨repo, e⟩ := p
    cases e with
    | file s =>
      simp only [cleanOwnerChildren]
      rw [ih]
      simp [specOwnerChildren, specOwnerCount, specOwnerSize,
        List.filterMap_cons]
    | dir cs =>
      simp only [cleanOwnerChildren]
      rw [ih, cleanRepoChildren_eq]
      by_cases he : (sweptShas active cs).isEmpty
      · simp [specOwnerChildren, specOwnerCount, specOwnerSize,
          List.filterMap_cons, he, Nat.add_comm]
      · simp [specOwnerChildren, specOwnerCount, specOwnerSize,
          List.filterMap_cons, he, Nat.add_comm]

theorem cleanGithubChildren_eq (active : List String)
    (owners : List (String × FsEntry)) :
    cleanGithubChildren active owners =
      (specGithubChildren active owners, specGithubCount active owners,
       specGithubSize active owners) := by
  induction owners with
  | nil => rfl
  | cons p rest ih =>
    obtain ⟨owner, e⟩ := p
    cases e with
    | file s =>
      simp only [cleanGithubChildren]
      rw [ih]
      simp [specGithubChildren, specGithubCount, specGithubSize,
        List.filterMap_cons]
    | dir cs =>
      simp only [cleanGithubChildren]
      rw [ih, cleanOwnerChildren_eq]
      by_cases he : (specOwnerChildren active cs).isEmpty
      · simp [specGithubChildren, specGithubCount, specGithubSize,
          List.filterMap_cons, he, Nat.add_comm]
      · simp [specGithubChildren, specGithubCount, specGithubSize,
          List.filterMap_cons, he, Nat.add_comm]

/-- C7.  `cleanCache` removes exactly the commit-SHA directories of the
`github/owner/repo/sha` hierarchy whose SHA no installed skill references:
the surviving tree keeps reachable SHAs and non-directory entries, prunes
owner/repo directories left empty, the reported count is the number of stale
SHA directories and the reported bytes are the sum of their recursive sizes,
and a missing cache directory removes zero entries. -/
theorem cleanCache_eq_spec (state : SyncState) (cache : Option FsEntry) :
    cleanCache state cache = specCleanCache state cache := by
  cases cache with
  | none => rfl
  | some e =>
    cases e with
    | file s => rfl
    | dir owners =>
      simp only [cleanCache, specCleanCache]
      rw [cleanGithubChildren_eq]

/-! ## C6: the cache probe is keyed by owner/repo, not by the pinned ref -/

/-- C6 counterexample.  Starting from an empty cache, fetching
`obra/tdd@v1` populates `github/obra/tdd/sha1`; a subsequent fetch of
`obra/tdd@v2` — a different identity, with the clone transport disabled — is
satisfied from that very cache entry (`cloned = false`, no commit SHA), so a
fetch of one ref CAN be answered by a cache entry created solely by fetching
the other. -/
theorem fetchSkill_ref_cache_counterexample :
    cacheAfterClone none ⟨"obra", "tdd", some "v1"⟩ "sha1" none
        (FsEntry.dir [("SKILL.md", FsEntry.file 5)]) =
      FsEntry.dir [("obra", FsEntry.dir [("tdd", FsEntry.dir [("sha1",
        FsEntry.dir [("SKILL.md", FsEntry.file 5)])])])] ∧
    parseSource "obra/tdd@v1" = Except.ok ⟨"obra", "tdd", some "v1"⟩ ∧
    parseSource "obra/tdd@v2" = Except.ok ⟨"obra", "tdd", some "v2"⟩ ∧
    fetchSkill
      ⟨some (FsEntry.dir [("obra", FsEntry.dir [("tdd", FsEntry.dir [("sha1",
          FsEntry.dir [("SKILL.md", FsEntry.file 5)])])])]),
       fun _ => .error "no local", fun _ => .error "network unavailable"⟩
      ⟨"obra/tdd@v2", none⟩ =
      Except.ok ⟨"<cache>/github/obra/tdd/sha1", none, false⟩ :=
  ⟨rfl, rfl, rfl, rfl⟩

theorem findCachedIn_congr {p₁ p₂ : ParsedSource}
    (howner : p₁.owner = p₂.owner) (hrepo : p₁.repo = p₂.repo)
    (subpath : Option String) (entries : List (String × FsEntry)) :
    findCachedIn p₁ subpath entries = findCachedIn p₂ subpath entries := by
  induction entries with
  | nil => rfl
  | cons p rest ih =>
    obtain ⟨sha, e⟩ := p
    unfold findCachedIn
    rw [ih]
    unfold getCachePath
    rw [howner, hrepo]

/-- C6 (amended).  For fetch purposes the cache identity is
`(owner, repo, subpath)` only: two remote references whose sources parse to
the same owner and repo and which carry the same `path` — in particular the
same `owner/repo` pinned at two different `@ref`s — receive the very same
answer from the cache probe, even though they are distinct deduplication
identities. -/
theorem findCachedSkill_ignores_ref (cache : Option FsEntry)
    (r₁ r₂ : SkillRef) (p₁ p₂ : ParsedSource)
    (h₁ : parseSource r₁.source = .ok p₁) (h₂ : parseSource r₂.source = .ok p₂)
    (howner : p₁.owner = p₂.owner) (hrepo : p₁.repo = p₂.repo)
    (hpath : r₁.path = r₂.path) :
    findCachedSkill cache r₁ = findCachedSkill cache r₂ := by
  unfold findCachedSkill
  rw [h₁, h₂]
  show (match lookupCacheRepo cache p₁.owner p₁.repo with
    | some (.dir entries) => pure (findCachedIn p₁ r₁.path entries)
    | _ => pure none) = (match lookupCacheRepo cache p₂.owner p₂.repo with
    | some (.dir entries) => pure (findCachedIn p₂ r₂.path entries)
    | _ => pure none)
  rw [← howner, ← hrepo, ← hpath]
  cases lookupCacheRepo cache p₁.owner p₁.repo with
  | none => rfl
  | some e =>
    cases e with
    | file s => rfl
    | dir entries => exact congrArg pure (findCachedIn_congr howner hrepo _ _)

/-- Witness for `findCachedSkill_ignores_ref` at the two concrete pinned
references over a one-entry cache. -/
theorem findCachedSkill_ignores_ref_witness :
    findCachedSkill
      (some (FsEntry.dir [("obra", FsEntry.dir [("tdd", FsEntry.dir [("sha1",
        FsEntry.dir [("SKILL.md", FsEntry.file 5)])])])]))
      ⟨"obra/tdd@v1", none⟩ =
    findCachedSkill
      (some (FsEntry.dir [("obra", FsEntry.dir [("tdd", FsEntry.dir [("sha1",
        FsEntry.dir [("SKILL.md", FsEntry.file 5)])])])]))
      ⟨"obra/tdd@v2", none⟩ :=
  findCachedSkill_ignores_ref _ _ _ ⟨"obra", "tdd", some "v1"⟩
    ⟨"obra", "tdd", some "v2"⟩ rfl rfl rfl rfl rfl

/-! ## Lemmas about the per-skill reconciliation fold -/

theorem processSkill_ok {env : SyncEnv}
    {prior : List (String × InstalledSkill)} {managed : List String}
    {agentDirs : List AgentDir} {dryRun : Bool} {acc : LoopAcc}
    {skill : ResolvedSkill} {entry : InstalledSkill} {tr : List Effect}
    (h : skillOutcome env managed agentDirs dryRun skill = .ok entry tr) :
    processSkill env prior managed agentDirs dryRun acc skill =
      { acc with synced := acc.synced ++ [skill.installName],
                 newSkills := setKey acc.newSkills skill.installName entry,
                 trace := acc.trace ++ tr } := by
  unfold processSkill
  rw [h]

theorem processSkill_failed {env : SyncEnv}
    {prior : List (String × InstalledSkill)} {managed : List String}
    {agentDirs : List AgentDir} {dryRun : Bool} {acc : LoopAcc}
    {skill : ResolvedSkill} {msg : String} {tr : List Effect}
    (h : skillOutcome env managed agentDirs dryRun skill = .failed msg tr) :
    processSkill env prior managed agentDirs dryRun acc skill =
      { acc with errors := acc.errors ++ [skill.installName ++ ": " ++ msg],
                 newSkills :=
                   match lookupKey prior skill.installName with
                   | some e => setKey acc.newSkills skill.installName e
                   | none => acc.newSkills,
                 trace := acc.trace ++ tr } := by
  unfold processSkill
  rw [h]

theorem processSkill_skipped {env : SyncEnv}
    {prior : List (String × InstalledSkill)} {managed : List String}
    {agentDirs : List AgentDir} {dryRun : Bool} {acc : LoopAcc}
    {skill : ResolvedSkill} {tr : List Effect}
    (h : skillOutcome env managed agentDirs dryRun skill = .skipped tr) :
    processSkill env prior managed agentDirs dryRun acc skill =
      { acc with trace := acc.trace ++ tr } := by
  unfold processSkill
  rw [h]

/-- The key of every binding added by one `processSkill` step is the step's
install name. -/
theorem keysOf_processSkill {env : SyncEnv}
    {prior : List (String × InstalledSkill)} {managed : List String}
    {agentDirs : List AgentDir} {dryRun : Bool} (acc : LoopAcc)
    (skill : ResolvedSkill) {k : String}
    (h : k ∈ keysOf (processSkill env prior managed agentDirs dryRun acc skill).newSkills) :
    k ∈ keysOf acc.newSkills ∨ k = skill.installName := by
  cases ho : skillOutcome env managed agentDirs dryRun skill with
  | ok entry tr =>
    rw [processSkill_ok ho] at h
    simp only [keysOf_setKey] at h
    by_cases hm : skill.installName ∈ keysOf acc.newSkills
    · rw [if_pos hm] at h
      exact Or.inl h
    · rw [if_neg hm] at h
      rcases List.mem_append.mp h with h | h
      · exact Or.inl h
      · exact Or.inr (by simpa using h)
  | failed msg tr =>
    rw [processSkill_failed ho] at h
    cases hp : lookupKey prior skill.installName with
    | some e =>
      simp only [hp] at h
      simp only [keysOf_setKey] at h
      by_cases hm : skill.installName ∈ keysOf acc.newSkills
      · rw [if_pos hm] at h
        exact Or.inl h
      · rw [if_neg hm] at h
        rcases List.mem_append.mp h with h | h
        · exact Or.inl h
        · exact Or.inr (by simpa using h)
    | none =>
      simp only [hp] at h
      exact Or.inl h
  | skipped tr =>
    rw [processSkill_skipped ho] at h
    exact Or.inl h

/-- A name carried by no remaining skill keeps its binding through the
fold. -/
theorem lookup_foldl_processSkill_untouched {env : SyncEnv}
    {prior : List (String × InstalledSkill)} {managed : List String}
    {agentDirs : List AgentDir} {dryRun : Bool} {name : String} :
    ∀ {l : List ResolvedSkill} (acc : LoopAcc),
    name ∉ l.map (·.installName) →
    lookupKey (l.foldl (processSkill env prior managed agentDirs dryRun) acc).newSkills name =
      lookupKey acc.newSkills name := by
  intro l
  induction l with
  | nil => intro acc _; rfl
  | cons s l ih =>
    intro acc hname
    simp only [List.map_cons, List.mem_cons, not_or] at hname
    rw [List.foldl_cons, ih _ (by simpa using hname.2)]
    cases ho : skillOutcome env managed agentDirs dryRun s with
    | ok entry tr =>
      rw [processSkill_ok ho]
      exact lookupKey_setKey_ne _ _ (fun hc => hname.1 hc.symm)
    | failed msg tr =>
      rw [processSkill_failed ho]
      cases hp : lookupKey prior s.installName with
      | some e =>
        simp only [hp]
        exact lookupKey_setKey_ne _ _ (fun hc => hname.1 hc.symm)
      | none => simp only [hp]
    | skipped tr =>
      rw [processSkill_skipped ho]

/-- Keys reached by the fold either existed already or come from processed
install names. -/
theorem keysOf_foldl_processSkill {env : SyncEnv}
    {prior : List (String × InstalledSkill)} {managed : List String}
    {agentDirs : List AgentDir} {dryRun : Bool} :
    ∀ {l : List ResolvedSkill} (acc : LoopAcc) {k : String},
    k ∈ keysOf (l.foldl (processSkill env prior managed agentDirs dryRun) acc).newSkills →
    k ∈ keysOf acc.newSkills ∨ k ∈ l.map (·.installName) := by
  intro l
  induction l with
  | nil => intro acc k h; exact Or.inl h
  | cons s l ih =>
    intro acc k h
    rw [List.foldl_cons] at h
    rcases ih _ h with h | h
    · rcases keysOf_processSkill acc s h with h | h
      · exact Or.inl h
      · exact Or.inr (by simp [h])
    · exact Or.inr (List.mem_cons_of_mem _ h)

/-- Synced names, error entries and trace effects only accumulate. -/
theorem foldl_processSkill_mono {env : SyncEnv}
    {prior : List (String × InstalledSkill)} {managed : List String}
    {agentDirs : List AgentDir} {dryRun : Bool} :
    ∀ {l : List ResolvedSkill} (acc : LoopAcc),
    (∀ x ∈ acc.synced,
      x ∈ (l.foldl (processSkill env prior managed agentDirs dryRun) acc).synced) ∧
    (∀ x ∈ acc.errors,
      x ∈ (l.foldl (processSkill env prior managed agentDirs dryRun) acc).errors) ∧
    (∀ x ∈ acc.trace,
      x ∈ (l.foldl (processSkill env prior managed agentDirs dryRun) acc).trace) := by
  intro l
  induction l with
  | nil => intro acc; exact ⟨fun x hx => hx, fun x hx => hx, fun x hx => hx⟩
  | cons s l ih =>
    intro acc
    rw [List.foldl_cons]
    refine ⟨fun x hx => (ih _).1 x ?_, fun x hx => (ih _).2.1 x ?_,
      fun x hx => (ih _).2.2 x ?_⟩ <;>
    · cases ho : skillOutcome env managed agentDirs dryRun s
      · rw [processSkill_ok ho]
        first
          | exact List.mem_append_left _ hx
          | exact hx
      · rw [processSkill_failed ho]
        first
          | exact List.mem_append_left _ hx
          | exact hx
      · rw [processSkill_skipped ho]
        first
          | exact List.mem_append_left _ hx
          | exact hx

/-- What one processed skill contributes to the fold's result: its outcome's
synced name, error entry or trace effects all appear in the final
accumulator, and its final state binding is determined by its outcome. -/
theorem foldl_processSkill_of_mem (env : SyncEnv)
    (prior : List (String × InstalledSkill)) (managed : List String)
    (agentDirs : List AgentDir) (dryRun : Bool) {l : List ResolvedSkill}
    {s : ResolvedSkill} (acc : LoopAcc) (hmem : s ∈ l)
    (hnodup : (l.map (·.installName)).Nodup)
    (hkeys : s.installName ∉ keysOf acc.newSkills) :
    (match skillOutcome env managed agentDirs dryRun s with
     | .ok entry _ =>
       lookupKey (l.foldl (processSkill env prior managed agentDirs dryRun) acc).newSkills
         s.installName = some entry ∧
       s.installName ∈ (l.foldl (processSkill env prior managed agentDirs dryRun) acc).synced
     | .failed msg _ =>
       lookupKey (l.foldl (processSkill env prior managed agentDirs dryRun) acc).newSkills
         s.installName = lookupKey prior s.installName ∧
       (s.installName ++ ": " ++ msg) ∈
         (l.foldl (processSkill env prior managed agentDirs dryRun) acc).errors
     | .skipped _ =>
       lookupKey (l.foldl (processSkill env prior managed agentDirs dryRun) acc).newSkills
         s.installName = none) := by
  induction l generalizing acc with
  | nil => cases hmem
  | cons x l ih =>
    rw [List.foldl_cons]
    simp only [List.map_cons, List.nodup_cons] at hnodup
    rcases List.mem_cons.mp hmem with heq | hmem'
    · subst heq
      have hrest : s.installName ∉ l.map (·.installName) := hnodup.1
      cases ho : skillOutcome env managed agentDirs dryRun s with
      | ok entry tr =>
        refine ⟨?_, ?_⟩
        · rw [lookup_foldl_processSkill_untouched _ hrest, processSkill_ok ho]
          exact lookupKey_setKey_self _ _ _
        · refine (foldl_processSkill_mono _).1 s.installName ?_
          rw [processSkill_ok ho]
          simp
      | failed msg tr =>
        refine ⟨?_, ?_⟩
        · rw [lookup_foldl_processSkill_untouched _ hrest, processSkill_failed ho]
          cases hp : lookupKey prior s.installName with
          | some e =>
            simp only [hp]
            exact lookupKey_setKey_self _ _ _
          | none =>
            simp only [hp]
            exact lookupKey_eq_none_of_not_mem hkeys
        · refine (foldl_processSkill_mono _).2.1 _ ?_
          rw [processSkill_failed ho]
          simp
      | skipped tr =>
        rw [lookup_foldl_processSkill_untouched _ hrest, processSkill_skipped ho]
        exact lookupKey_eq_none_of_not_mem hkeys
    · have hxs : x.installName ≠ s.installName := by
        intro hc
        exact hnodup.1 (hc ▸ List.mem_map_of_mem _ hmem')
      have hkeys' : s.installName ∉
          keysOf (processSkill env prior managed agentDirs dryRun acc x).newSkills := by
        intro hc
        rcases keysOf_processSkill acc x hc with hc | hc
        · exact hkeys hc
        · exact hxs hc.symm
      exact ih _ hmem' hnodup.2 hkeys'

/-- A step over a skill with a different install name leaves a state binding
unchanged. -/
theorem lookup_processSkill_ne {env : SyncEnv}
    {prior : List (String × InstalledSkill)} {managed : List String}
    {agentDirs : List AgentDir} {dryRun : Bool} (acc : LoopAcc)
    (x : ResolvedSkill) {k : String} (hne : x.installName ≠ k) :
    lookupKey (processSkill env prior managed agentDirs dryRun acc x).newSkills k =
      lookupKey acc.newSkills k := by
  cases ho : skillOutcome env managed agentDirs dryRun x with
  | ok entry tr =>
    rw [processSkill_ok ho]
    exact lookupKey_setKey_ne _ _ hne
  | failed msg tr =>
    rw [processSkill_failed ho]
    cases hp : lookupKey prior x.installName with
    | some e =>
      simp only [hp]
      exact lookupKey_setKey_ne _ _ hne
    | none => simp only [hp]
  | skipped tr =>
    rw [processSkill_skipped ho]

/-- Once a failing skill's binding equals its prior binding, folding over
skills that carry its install name only if they are that very skill keeps the
binding there. -/
theorem lookup_foldl_processSkill_stable (env : SyncEnv)
    (prior : List (String × InstalledSkill)) (managed : List String)
    (agentDirs : List AgentDir) (dryRun : Bool) {s : ResolvedSkill}
    {msg : String} {tr : List Effect}
    (hfail : skillOutcome env managed agentDirs dryRun s = .failed msg tr) :
    ∀ {l : List ResolvedSkill} (acc : LoopAcc),
    (∀ t ∈ l, t.installName = s.installName → t = s) →
    lookupKey acc.newSkills s.installName = lookupKey prior s.installName →
    lookupKey (l.foldl (processSkill env prior managed agentDirs dryRun) acc).newSkills
      s.installName = lookupKey prior s.installName := by
  intro l
  induction l with
  | nil => intro acc _ hacc; exact hacc
  | cons x l ih =>
    intro acc huniq hacc
    rw [List.foldl_cons]
    refine ih _ (fun t ht h => huniq t (List.mem_cons_of_mem _ ht) h) ?_
    by_cases hx : x.installName = s.installName
    · rw [huniq x (List.mem_cons_self _ _) hx, processSkill_failed hfail]
      cases hp : lookupKey prior s.installName with
      | some e =>
        simp only [hp]
        rw [lookupKey_setKey_self]
      | none =>
        simp only [hp]
        rw [hacc]
        exact hp
    · rw [lookup_processSkill_ne acc x hx]
      exact hacc

/-- A failing skill whose install name no other resolved skill carries ends
the fold bound to exactly its prior binding. -/
theorem lookup_foldl_processSkill_failed_uniq (env : SyncEnv)
    (prior : List (String × InstalledSkill)) (managed : List String)
    (agentDirs : List AgentDir) (dryRun : Bool) {s : ResolvedSkill}
    {msg : String} {tr : List Effect}
    (hfail : skillOutcome env managed agentDirs dryRun s = .failed msg tr) :
    ∀ {l : List ResolvedSkill} (acc : LoopAcc), s ∈ l →
    (∀ t ∈ l, t.installName = s.installName → t = s) →
    s.installName ∉ keysOf acc.newSkills →
    lookupKey (l.foldl (processSkill env prior managed agentDirs dryRun) acc).newSkills
      s.installName = lookupKey prior s.installName := by
  intro l
  induction l with
  | nil => intro acc hmem _ _; cases hmem
  | cons x l ih =>
    intro acc hmem huniq hkeys
    rw [List.foldl_cons]
    by_cases hx : x.installName = s.installName
    · have hstep : lookupKey
          (processSkill env prior managed agentDirs dryRun acc x).newSkills
          s.installName = lookupKey prior s.installName := by
        rw [huniq x (List.mem_cons_self _ _) hx, processSkill_failed hfail]
        cases hp : lookupKey prior s.installName with
        | some e =>
          simp only [hp]
          rw [lookupKey_setKey_self]
        | none =>
          simp only [hp]
          exact lookupKey_eq_none_of_not_mem hkeys
      exact lookup_foldl_processSkill_stable env prior managed agentDirs dryRun
        hfail _ (fun t ht h => huniq t (List.mem_cons_of_mem _ ht) h) hstep
    · have hmem' : s ∈ l := by
        rcases List.mem_cons.mp hmem with heq | h
        · exact absurd (congrArg ResolvedSkill.installName heq).symm hx
        · exact h
      have hkeys' : s.installName ∉
          keysOf (processSkill env prior managed agentDirs dryRun acc x).newSkills := by
        intro hc
        rcases keysOf_processSkill acc x hc with hc | hc
        · exact hkeys hc
        · exact hx hc.symm
      exact ih _ hmem' (fun t ht h => huniq t (List.mem_cons_of_mem _ ht) h) hkeys'

/-- A failing skill's tagged error message reaches the fold's error list,
whatever the other skills do. -/
theorem errors_foldl_processSkill_of_mem (env : SyncEnv)
    (prior : List (String × InstalledSkill)) (managed : List String)
    (agentDirs : List AgentDir) (dryRun : Bool) {s : ResolvedSkill}
    {msg : String} {tr : List Effect}
    (hfail : skillOutcome env managed agentDirs dryRun s = .failed msg tr) :
    ∀ {l : List ResolvedSkill} (acc : LoopAcc), s ∈ l →
    (s.installName ++ ": " ++ msg) ∈
      (l.foldl (processSkill env prior managed agentDirs dryRun) acc).errors := by
  intro l
  induction l with
  | nil => intro acc hmem; cases hmem
  | cons x l ih =>
    intro acc hmem
    rw [List.foldl_cons]
    rcases List.mem_cons.mp hmem with heq | hmem'
    · refine (foldl_processSkill_mono _).2.1 _ ?_
      rw [← heq, processSkill_failed hfail]
      simp
    · exact ih _ hmem'

/-- A successfully reconciling skill's install name reaches the fold's synced
list, whatever the other skills do. -/
theorem synced_foldl_processSkill_of_mem (env : SyncEnv)
    (prior : List (String × InstalledSkill)) (managed : List String)
    (agentDirs : List AgentDir) (dryRun : Bool) {s : ResolvedSkill}
    {entry : InstalledSkill} {tr : List Effect}
    (hok : skillOutcome env managed agentDirs dryRun s = .ok entry tr) :
    ∀ {l : List ResolvedSkill} (acc : LoopAcc), s ∈ l →
    s.installName ∈
      (l.foldl (processSkill env prior managed agentDirs dryRun) acc).synced := by
  intro l
  induction l with
  | nil => intro acc hmem; cases hmem
  | cons x l ih =>
    intro acc hmem
    rw [List.foldl_cons]
    rcases List.mem_cons.mp hmem with heq | hmem'
    · refine (foldl_processSkill_mono _).1 _ ?_
      rw [← heq, processSkill_ok hok]
      simp
    · exact ih _ hmem'

/-! ## Lemmas about the orphan-handling fold -/

theorem processOrphan_none {prior : List (String × InstalledSkill)}
    {agentDirs : List AgentDir} {dryRun : Bool} {acc : OrphanAcc}
    {name : String} (h : lookupKey prior name = none) :
    processOrphan prior agentDirs dryRun acc name = acc := by
  unfold processOrphan
  rw [h]

theorem processOrphan_conditional {prior : List (String × InstalledSkill)}
    {agentDirs : List AgentDir} {dryRun : Bool} {acc : OrphanAcc}
    {name : String} {inst : InstalledSkill}
    (h : lookupKey prior name = some inst)
    (ht : inst.type = SkillType.conditional) :
    processOrphan prior agentDirs dryRun acc name =
      { acc with removed := acc.removed ++ [name],
                 trace := acc.trace ++ (if dryRun then []
                   else agentDirs.map (fun d => Effect.removeDir d.skillsPath name)) } := by
  unfold processOrphan
  rw [h]
  simp [ht]

theorem processOrphan_explicit {prior : List (String × InstalledSkill)}
    {agentDirs : List AgentDir} {dryRun : Bool} {acc : OrphanAcc}
    {name : String} {inst : InstalledSkill}
    (h : lookupKey prior name = some inst)
    (ht : inst.type ≠ SkillType.conditional) :
    processOrphan prior agentDirs dryRun acc name =
      { acc with orphaned := acc.orphaned ++ [name],
                 newSkills := setKey acc.newSkills name inst } := by
  unfold processOrphan
  rw [h]
  simp [ht]

theorem lookup_foldl_processOrphan_untouched
    {prior : List (String × InstalledSkill)} {agentDirs : List AgentDir}
    {dryRun : Bool} {name : String} :
    ∀ {orphans : List String} (acc : OrphanAcc), name ∉ orphans →
    lookupKey (orphans.foldl (processOrphan prior agentDirs dryRun) acc).newSkills name =
      lookupKey acc.newSkills name := by
  intro orphans
  induction orphans with
  | nil => intro acc _; rfl
  | cons n orphans ih =>
    intro acc hname
    simp only [List.mem_cons, not_or] at hname
    rw [List.foldl_cons, ih _ hname.2]
    cases hp : lookupKey prior n with
    | none => rw [processOrphan_none hp]
    | some inst =>
      by_cases ht : inst.type = SkillType.conditional
      · rw [processOrphan_conditional hp ht]
      · rw [processOrphan_explicit hp ht]
        exact lookupKey_setKey_ne _ _ (fun hc => hname.1 hc.symm)

theorem keysOf_foldl_processOrphan
    {prior : List (String × InstalledSkill)} {agentDirs : List AgentDir}
    {dryRun : Bool} :
    ∀ {orphans : List String} (acc : OrphanAcc) {k : String},
    k ∈ keysOf (orphans.foldl (processOrphan prior agentDirs dryRun) acc).newSkills →
    k ∈ keysOf acc.newSkills ∨ k ∈ orphans := by
  intro orphans
  induction orphans with
  | nil => intro acc k h; exact Or.inl h
  | cons n orphans ih =>
    intro acc k h
    rw [List.foldl_cons] at h
    rcases ih _ h with h | h
    · cases hp : lookupKey prior n with
      | none =>
        rw [processOrphan_none hp] at h
        exact Or.inl h
      | some inst =>
        by_cases ht : inst.type = SkillType.conditional
        · rw [processOrphan_conditional hp ht] at h
          exact Or.inl h
        · rw [processOrphan_explicit hp ht] at h
          simp only [keysOf_setKey] at h
          by_cases hm : n ∈ keysOf acc.newSkills
          · rw [if_pos hm] at h
            exact Or.inl h
          · rw [if_neg hm] at h
            rcases List.mem_append.mp h with h | h
            · exact Or.inl h
            · refine Or.inr (List.mem_cons.mpr (Or.inl ?_))
              simpa using h
    · exact Or.inr (List.mem_cons_of_mem _ h)

theorem foldl_processOrphan_mono
    {prior : List (String × InstalledSkill)} {agentDirs : List AgentDir}
    {dryRun : Bool} :
    ∀ {orphans : List String} (acc : OrphanAcc),
    (∀ x ∈ acc.removed,
      x ∈ (orphans.foldl (processOrphan prior agentDirs dryRun) acc).removed) ∧
    (∀ x ∈ acc.orphaned,
      x ∈ (orphans.foldl (processOrphan prior agentDirs dryRun) acc).orphaned) ∧
    (∀ x ∈ acc.trace,
      x ∈ (orphans.foldl (processOrphan prior agentDirs dryRun) acc).trace) := by
  intro orphans
  induction orphans with
  | nil => intro acc; exact ⟨fun x hx => hx, fun x hx => hx, fun x hx => hx⟩
  | cons n orphans ih =>
    intro acc
    rw [List.foldl_cons]
    refine ⟨fun x hx => (ih _).1 x ?_, fun x hx => (ih _).2.1 x ?_,
      fun x hx => (ih _).2.2 x ?_⟩ <;>
    · cases hp : lookupKey prior n with
      | none =>
        rw [processOrphan_none hp]
        exact hx
      | some inst =>
        by_cases ht : inst.type = SkillType.conditional
        · rw [processOrphan_conditional hp ht]
          first
            | exact List.mem_append_left _ hx
            | exact hx
        · rw [processOrphan_explicit hp ht]
          first
            | exact List.mem_append_left _ hx
            | exact hx

/-- What one orphan name contributes to the orphan fold. -/
theorem foldl_processOrphan_of_mem
    (prior : List (String × InstalledSkill)) (agentDirs : List AgentDir)
    (dryRun : Bool) {orphans : List String} {name : String}
    {inst : InstalledSkill} (acc : OrphanAcc) (hmem : name ∈ orphans)
    (hnodup : orphans.Nodup) (hp : lookupKey prior name = some inst) :
    (inst.type = SkillType.conditional →
      name ∈ (orphans.foldl (processOrphan prior agentDirs dryRun) acc).removed ∧
      lookupKey (orphans.foldl (processOrphan prior agentDirs dryRun) acc).newSkills name =
        lookupKey acc.newSkills name ∧
      (dryRun = false → ∀ d ∈ agentDirs, Effect.removeDir d.skillsPath name ∈
        (orphans.foldl (processOrphan prior agentDirs dryRun) acc).trace)) ∧
    (inst.type ≠ SkillType.conditional →
      name ∈ (orphans.foldl (processOrphan prior agentDirs dryRun) acc).orphaned ∧
      lookupKey (orphans.foldl (processOrphan prior agentDirs dryRun) acc).newSkills name =
        some inst) := by
  induction orphans generalizing acc with
  | nil => cases hmem
  | cons n orphans ih =>
    rw [List.foldl_cons]
    rw [List.nodup_cons] at hnodup
    rcases List.mem_cons.mp hmem with heq | hmem'
    · subst heq
      constructor
      · intro ht
        rw [processOrphan_conditional hp ht]
        refine ⟨?_, ?_, ?_⟩
        · exact (foldl_processOrphan_mono _).1 name (by simp)
        · exact lookup_foldl_processOrphan_untouched _ hnodup.1
        · intro hdr d hd
          refine (foldl_processOrphan_mono _).2.2 _ ?_
          simp only [hdr, Bool.false_eq_true, if_false]
          exact List.mem_append_right _
            (List.mem_map.mpr ⟨d, hd, rfl⟩)
      · intro ht
        rw [processOrphan_explicit hp ht]
        refine ⟨(foldl_processOrphan_mono _).2.1 name (by simp), ?_⟩
        rw [lookup_foldl_processOrphan_untouched _ hnodup.1]
        exact lookupKey_setKey_self _ _ _
    · have hne : n ≠ name := fun hc => hnodup.1 (hc ▸ hmem')
      have step : ∀ acc', lookupKey
          (processOrphan prior agentDirs dryRun acc' n).newSkills name =
          lookupKey acc'.newSkills name := by
        intro acc'
        cases hpn : lookupKey prior n with
        | none => rw [processOrphan_none hpn]
        | some i =>
          by_cases ht : i.type = SkillType.conditional
          · rw [processOrphan_conditional hpn ht]
          · rw [processOrphan_explicit hpn ht]
            exact lookupKey_setKey_ne _ _ hne
      have := ih (processOrphan prior agentDirs dryRun acc n) hmem' hnodup.2
      refine ⟨fun ht => ?_, fun ht => ?_⟩
      · obtain ⟨h₁, h₂, h₃⟩ := this.1 ht
        exact ⟨h₁, by rw [h₂, step acc], h₃⟩
      · obtain ⟨h₁, h₂⟩ := this.2 ht
        exact ⟨h₁, h₂⟩

/-- When every orphan with a prior entry is conditional, the orphan fold
leaves the skill map untouched. -/
theorem foldl_processOrphan_all_conditional
    (prior : List (String × InstalledSkill)) (agentDirs : List AgentDir)
    (dryRun : Bool) :
    ∀ {orphans : List String} (acc : OrphanAcc),
    (∀ n ∈ orphans, ∀ inst, lookupKey prior n = some inst →
      inst.type = SkillType.conditional) →
    (orphans.foldl (processOrphan prior agentDirs dryRun) acc).newSkills =
      acc.newSkills := by
  intro orphans
  induction orphans with
  | nil => intro acc _; rfl
  | cons n orphans ih =>
    intro acc hall
    rw [List.foldl_cons]
    rw [ih _ (fun m hm inst hi => hall m (List.mem_cons_of_mem _ hm) inst hi)]
    cases hp : lookupKey prior n with
    | none => rw [processOrphan_none hp]
    | some inst =>
      rw [processOrphan_conditional hp (hall n (List.mem_cons_self _ _) inst hp)]

/-! ## C10: a commit SHA is reported only on a cache miss -/

theorem mem_resolved_not_orphan {state : SyncState} {projectRoot : String}
    {resolvedSkills : List ResolvedSkill} {s : ResolvedSkill}
    (hs : s ∈ resolvedSkills) :
    s.installName ∉ getOrphanedSkills state projectRoot resolvedSkills := by
  unfold getOrphanedSkills
  intro hc
  rw [List.mem_filter] at hc
  have h2 := hc.2
  simp only [decide_eq_true_eq] at h2
  exact h2 (List.elem_eq_true_of_mem (List.mem_map_of_mem _ hs))

theorem getProjectState_after_sync (v : Nat) (t : String)
    (projects : List (String × ProjectState)) (projectRoot : String)
    (proj : ProjectState) :
    getProjectState ⟨v, t, setKey projects projectRoot proj⟩ projectRoot = proj := by
  unfold getProjectState
  rw [lookupKey_setKey_self]
  rfl

/-- C10.  `fetchSkill` reports a commit SHA only on a cache miss: any outcome
carrying a SHA came from a clone after the cache probe answered `none`; a
remote reference satisfied from cache yields `⟨cached, none, false⟩`; and when
`syncSkills` records such a cache-hit skill, the recorded `InstalledSkill` has
no `commitSha` (so it contributes nothing to the cache reclaimer's reachable
set). -/
theorem fetchSkill_sha_only_on_miss
    (w : FetchWorld) (env : SyncEnv) (projectRoot : String)
    (resolvedSkills : List ResolvedSkill) (agentDirs : List AgentDir)
    (state : SyncState) (s : ResolvedSkill) (cached : String)
    (henv : env.fetch = fetchSkill w)
    (hs : s ∈ resolvedSkills)
    (hnodup : (resolvedSkills.map (·.installName)).Nodup)
    (hns : isInSync state projectRoot resolvedSkills = false)
    (hremote : s.ref.source ≠ "local")
    (hhit : findCachedSkill w.cache s.ref = Except.ok (some cached)) :
    (∀ ref o, fetchSkill w ref = .ok o → o.commitSha ≠ none →
      ref.source ≠ "local" ∧ findCachedSkill w.cache ref = .ok none) ∧
    fetchSkill w s.ref = .ok ⟨cached, none, false⟩ ∧
    (∀ entry tr,
      skillOutcome env (keysOf (getProjectState state projectRoot).skills)
        agentDirs false s = .ok entry tr →
      entry.commitSha = none ∧
      lookupKey (getProjectState
        (syncSkills env projectRoot resolvedSkills agentDirs state false).1.updatedState
        projectRoot).skills s.installName = some entry) := by
  have hfetch_hit : fetchSkill w s.ref = .ok ⟨cached, none, false⟩ := by
    unfold fetchSkill
    rw [if_neg hremote, hhit]
    rfl
  refine ⟨?_, hfetch_hit, ?_⟩
  · intro ref o ho hsha
    unfold fetchSkill at ho
    by_cases hl : ref.source = "local"
    · rw [if_pos hl] at ho
      cases hp : truthy ref.path with
      | none =>
        rw [hp] at ho
        exact Except.noConfusion ho
      | some p =>
        rw [hp] at ho
        rw [except_map_ok] at ho
        obtain ⟨abs, -, ho⟩ := ho
        rw [← ho] at hsha
        exact absurd rfl hsha
    · rw [if_neg hl] at ho
      rw [except_bind_ok] at ho
      obtain ⟨probe, hprobe, ho⟩ := ho
      cases probe with
      | some c =>
        simp only [pure, Except.pure] at ho
        cases ho
        exact absurd rfl hsha
      | none =>
        exact ⟨hl, hprobe⟩
  · intro entry tr hoc
    have hmanaged := hoc
    unfold skillOutcome at hmanaged
    rw [henv, hfetch_hit] at hmanaged
    have hred : (match copyLoop env (keysOf (getProjectState state projectRoot).skills)
        false s.installName cached agentDirs with
      | (_, tr', some msg) => SkillOutcome.failed msg ([] ++ tr')
      | (agents, tr', none) =>
        if agents.isEmpty then SkillOutcome.skipped ([] ++ tr')
        else SkillOutcome.ok (mkInstalled s none env.now agents) ([] ++ tr'))
        = SkillOutcome.ok entry tr := hmanaged
    obtain ⟨⟨agents, ctr, cerr⟩, hcl⟩ :
        ∃ r, copyLoop env (keysOf (getProjectState state projectRoot).skills)
          false s.installName cached agentDirs = r := ⟨_, rfl⟩
    rw [hcl] at hred
    have hentry : entry.commitSha = none := by
      cases cerr with
      | some msg =>
        exact SkillOutcome.noConfusion
          (show SkillOutcome.failed msg ([] ++ ctr) = SkillOutcome.ok entry tr
            from hred)
      | none =>
        have hred2 : (if agents.isEmpty then SkillOutcome.skipped ([] ++ ctr)
            else SkillOutcome.ok (mkInstalled s none env.now agents) ([] ++ ctr))
            = SkillOutcome.ok entry tr := hred
        by_cases hae : agents.isEmpty
        · rw [if_pos hae] at hred2
          exact SkillOutcome.noConfusion hred2
        · rw [if_neg hae] at hred2
          injection hred2 with h1 h2
          rw [← h1]
          rfl
    refine ⟨hentry, ?_⟩
    have hlookup := foldl_processSkill_of_mem
      env (getProjectState state projectRoot).skills
      (keysOf (getProjectState state projectRoot).skills)
      agentDirs false
      (⟨[], [], [], []⟩ : LoopAcc) hs hnodup (by simp [keysOf])
    rw [hoc] at hlookup
    simp only [syncSkills, hns, Bool.false_eq_true, if_false]
    rw [getProjectState_after_sync]
    show lookupKey ((getOrphanedSkills state projectRoot resolvedSkills).foldl
      (processOrphan (getProjectState state projectRoot).skills agentDirs false)
      ⟨[], [], _, _⟩).newSkills s.installName = some entry
    rw [lookup_foldl_processOrphan_untouched _ (mem_resolved_not_orphan hs)]
    exact hlookup.1

/-- Witness for `fetchSkill_sha_only_on_miss` at a concrete one-entry cache
and a single resolved skill. -/
theorem fetchSkill_sha_only_on_miss_witness :
    fetchSkill
      ⟨some (FsEntry.dir [("obra", FsEntry.dir [("tdd", FsEntry.dir [("sha1",
          FsEntry.dir [("SKILL.md", FsEntry.file 5)])])])]),
       fun _ => .error "no local", fun _ => .error "offline"⟩
      ⟨"obra/tdd", none⟩ =
      .ok ⟨"<cache>/github/obra/tdd/sha1", none, false⟩ := by
  refine (fetchSkill_sha_only_on_miss
    ⟨some (FsEntry.dir [("obra", FsEntry.dir [("tdd", FsEntry.dir [("sha1",
        FsEntry.dir [("SKILL.md", FsEntry.file 5)])])])]),
     fun _ => .error "no local", fun _ => .error "offline"⟩
    ⟨fun r => fetchSkill
      ⟨some (FsEntry.dir [("obra", FsEntry.dir [("tdd", FsEntry.dir [("sha1",
          FsEntry.dir [("SKILL.md", FsEntry.file 5)])])])]),
       fun _ => .error "no local", fun _ => .error "offline"⟩ r,
     fun _ => false, fun _ _ => none, some [], "T"⟩
    "/p" [⟨⟨"obra/tdd", none⟩, .global, "tdd"⟩] [] ⟨1, "", []⟩
    ⟨⟨"obra/tdd", none⟩, .global, "tdd"⟩ "<cache>/github/obra/tdd/sha1"
    rfl (by simp) (by decide) rfl (by decide) rfl).2.1

/-! ## C4: what a dry run does and does not touch -/

/-- The effect trace of a skill outcome. -/
def outcomeTrace : SkillOutcome → List Effect
  | .ok _ tr => tr
  | .failed _ tr => tr
  | .skipped tr => tr

/-- A dry-run agent loop performs no effects and cannot fail. -/
theorem copyLoop_dry (env : SyncEnv) (managed : List String) (name src : String) :
    ∀ agentDirs : List AgentDir,
    (copyLoop env managed true name src agentDirs).2.1 = [] ∧
    (copyLoop env managed true name src agentDirs).2.2 = none := by
  intro agentDirs
  induction agentDirs with
  | nil => exact ⟨rfl, rfl⟩
  | cons d rest ih =>
    unfold copyLoop
    by_cases hskip : env.fsExists (destPath d.skillsPath name) &&
        ¬ managed.contains name
    · rw [if_pos hskip]
      exact ih
    · rw [if_neg hskip, if_pos rfl]
      exact ih

/-- A dry-run skill outcome's trace holds clone effects only. -/
theorem skillOutcome_dry_trace (env : SyncEnv) (managed : List String)
    (agentDirs : List AgentDir) (s : ResolvedSkill) {e : Effect}
    (he : e ∈ outcomeTrace (skillOutcome env managed agentDirs true s)) :
    ∃ ref, e = Effect.clone ref := by
  unfold skillOutcome at he
  cases hf : env.fetch s.ref with
  | error msg =>
    rw [hf] at he
    cases he
  | ok o =>
    rw [hf] at he
    have he2 : e ∈ outcomeTrace
        (match copyLoop env managed true s.installName o.path agentDirs with
          | (_, tr, some msg) => SkillOutcome.failed msg
              ((if o.cloned then [Effect.clone s.ref] else []) ++ tr)
          | (agents, tr, none) =>
            if agents.isEmpty then SkillOutcome.skipped
                ((if o.cloned then [Effect.clone s.ref] else []) ++ tr)
            else SkillOutcome.ok (mkInstalled s o.commitSha env.now agents)
                ((if o.cloned then [Effect.clone s.ref] else []) ++ tr)) := he
    obtain ⟨⟨agents, tr0, er0⟩, hcl⟩ :
        ∃ r, copyLoop env managed true s.installName o.path agentDirs = r :=
      ⟨_, rfl⟩
    have hdry := copyLoop_dry env managed s.installName o.path agentDirs
    rw [hcl] at hdry he2
    obtain ⟨htr0, her0⟩ := hdry
    simp only at htr0 her0
    subst htr0
    subst her0
    have he3 : e ∈ outcomeTrace
        (if agents.isEmpty then SkillOutcome.skipped
            ((if o.cloned then [Effect.clone s.ref] else []) ++ [])
          else SkillOutcome.ok (mkInstalled s o.commitSha env.now agents)
            ((if o.cloned then [Effect.clone s.ref] else []) ++ [])) := he2
    by_cases hae : agents.isEmpty
    · rw [if_pos hae] at he3
      unfold outcomeTrace at he3
      by_cases hcln : o.cloned <;> simp [hcln] at he3
      exact ⟨s.ref, he3⟩
    · rw [if_neg hae] at he3
      unfold outcomeTrace at he3
      by_cases hcln : o.cloned <;> simp [hcln] at he3
      exact ⟨s.ref, he3⟩

theorem trace_foldl_processSkill_dry {env : SyncEnv}
    {prior : List (String × InstalledSkill)} {managed : List String}
    {agentDirs : List AgentDir} :
    ∀ {l : List ResolvedSkill} (acc : LoopAcc) {e : Effect},
    e ∈ (l.foldl (processSkill env prior managed agentDirs true) acc).trace →
    e ∈ acc.trace ∨ ∃ ref, e = Effect.clone ref := by
  intro l
  induction l with
  | nil => intro acc e he; exact Or.inl he
  | cons s l ih =>
    intro acc e he
    rw [List.foldl_cons] at he
    rcases ih _ he with he' | he'
    · have hstep : (processSkill env prior managed agentDirs true acc s).trace =
          acc.trace ++ outcomeTrace (skillOutcome env managed agentDirs true s) := by
        cases ho : skillOutcome env managed agentDirs true s with
        | ok entry tr => rw [processSkill_ok ho]; rfl
        | failed msg tr => rw [processSkill_failed ho]; rfl
        | skipped tr => rw [processSkill_skipped ho]; rfl
      rw [hstep] at he'
      rcases List.mem_append.mp he' with he'' | he''
      · exact Or.inl he''
      · exact Or.inr (skillOutcome_dry_trace env managed agentDirs s he'')
    · exact Or.inr he'

theorem trace_foldl_processOrphan_dry
    {prior : List (String × InstalledSkill)} {agentDirs : List AgentDir} :
    ∀ {orphans : List String} (acc : OrphanAcc),
    (orphans.foldl (processOrphan prior agentDirs true) acc).trace = acc.trace := by
  intro orphans
  induction orphans with
  | nil => intro acc; rfl
  | cons n orphans ih =>
    intro acc
    rw [List.foldl_cons, ih]
    cases hp : lookupKey prior n with
    | none => rw [processOrphan_none hp]
    | some inst =>
      by_cases ht : inst.type = SkillType.conditional
      · rw [processOrphan_conditional hp ht]
        simp
      · rw [processOrphan_explicit hp ht]

/-- C4 counterexample.  A dry run still invokes the fetch contract, and on a
cache miss the fetch clones and writes the cache: with an empty cache and one
remote skill, `syncSkills … dryRun = true` produces a `clone` effect —
a temp-clone write plus a cache write — so a dry run is not free of
filesystem mutation. -/
theorem syncSkills_dryRun_mutates_counterexample :
    (syncSkills
      ⟨fetchSkill ⟨none, fun _ => .error "no local", fun _ => .ok "sha111"⟩,
       fun _ => false, fun _ _ => none, some [], "T"⟩
      "/p" [⟨⟨"obra/tdd", none⟩, .global, "tdd"⟩] [] ⟨1, "", []⟩ true).2 =
      [Effect.clone ⟨"obra/tdd", none⟩] ∧
    (syncSkills
      ⟨fetchSkill ⟨none, fun _ => .error "no local", fun _ => .ok "sha111"⟩,
       fun _ => false, fun _ _ => none, some [], "T"⟩
      "/p" [⟨⟨"obra/tdd", none⟩, .global, "tdd"⟩] [] ⟨1, "", []⟩ true).1.updatedState =
      ⟨1, "", []⟩ :=
  ⟨rfl, rfl⟩

/-- C4 (amended).  A dry run never copies, removes or rewrites anything under
the agent directories and returns the input state unchanged; but it still
runs the fetch contract, so its trace may contain clone effects (temp-clone
and cache writes) for cache-missing remote skills. -/
theorem syncSkills_dryRun_pure (env : SyncEnv) (projectRoot : String)
    (resolvedSkills : List ResolvedSkill) (agentDirs : List AgentDir)
    (state : SyncState) :
    (syncSkills env projectRoot resolvedSkills agentDirs state true).1.updatedState
      = state ∧
    ∀ e ∈ (syncSkills env projectRoot resolvedSkills agentDirs state true).2,
      ∃ ref, e = Effect.clone ref := by
  by_cases hsync : isInSync state projectRoot resolvedSkills
  · constructor
    · simp [syncSkills, hsync]
    · intro e he
      simp [syncSkills, hsync] at he
  · have hfalse : isInSync state projectRoot resolvedSkills = false := by
      simpa using hsync
    constructor
    · simp [syncSkills, hfalse]
    · intro e he
      simp only [syncSkills, hfalse, Bool.false_eq_true, if_false] at he
      rw [trace_foldl_processOrphan_dry] at he
      rcases trace_foldl_processSkill_dry _ he with he' | he'
      · cases he'
      · exact he'

/-! ## C5: conditional orphans are removed, explicit orphans are kept -/

/-- A project holding an installed name absent from the resolved set is never
in sync. -/
theorem not_inSync_of_orphan {state : SyncState} {projectRoot : String}
    {resolvedSkills : List ResolvedSkill} {name : String} {inst : InstalledSkill}
    (hlook : lookupKey (getProjectState state projectRoot).skills name = some inst)
    (habsent : name ∉ resolvedSkills.map (·.installName)) :
    isInSync state projectRoot resolvedSkills = false := by
  cases hval : isInSync state projectRoot resolvedSkills with
  | false => rfl
  | true =>
    exfalso
    unfold isInSync at hval
    by_cases hlen : ((keysOf (getProjectState state projectRoot).skills).dedup).length ≠
        ((resolvedSkills.map (·.installName)).dedup).length
    · rw [if_pos hlen] at hval
      exact Bool.noConfusion hval
    · rw [if_neg hlen] at hval
      push_neg at hlen
      rw [List.all_eq_true] at hval
      have hsub : (name :: (resolvedSkills.map (·.installName)).dedup) ⊆
          (keysOf (getProjectState state projectRoot).skills).dedup := by
        intro a ha
        rcases List.mem_cons.mp ha with rfl | ha
        · exact List.mem_dedup.mpr (mem_keysOf_of_lookupKey hlook)
        · obtain ⟨r, hr, hra⟩ := List.mem_map.mp (List.mem_dedup.mp ha)
          have hm := hval r hr
          unfold entryMatches at hm
          cases hlr : lookupKey (getProjectState state projectRoot).skills
              r.installName with
          | none =>
            rw [hlr] at hm
            exact Bool.noConfusion hm
          | some entry =>
            exact List.mem_dedup.mpr (hra ▸ mem_keysOf_of_lookupKey hlr)
      have hnd : (name :: (resolvedSkills.map (·.installName)).dedup).Nodup := by
        rw [List.nodup_cons]
        exact ⟨fun hc => habsent (List.mem_dedup.mp hc), List.nodup_dedup _⟩
      have hle := (List.subperm_of_subset hnd hsub).length_le
      simp only [List.length_cons] at hle
      omega

/-- The agent-directory loop never deletes anything. -/
theorem copyLoop_no_remove (env : SyncEnv) (managed : List String)
    (dryRun : Bool) (name src : String) :
    ∀ (agentDirs : List AgentDir) (sp n : String),
    Effect.removeDir sp n ∉ (copyLoop env managed dryRun name src agentDirs).2.1 := by
  intro agentDirs
  induction agentDirs with
  | nil => intro sp n h; cases h
  | cons d rest ih =>
    intro sp n
    unfold copyLoop
    by_cases hskip : env.fsExists (destPath d.skillsPath name) &&
        ¬ managed.contains name
    · rw [if_pos hskip]
      exact ih sp n
    · rw [if_neg hskip]
      by_cases hdr : dryRun
      · rw [if_pos hdr]
        exact ih sp n
      · rw [if_neg hdr]
        cases hce : env.copyError src (destPath d.skillsPath name) with
        | some msg =>
          intro h
          exact Effect.noConfusion (List.mem_singleton.mp h)
        | none =>
          intro h
          have h2 : Effect.removeDir sp n ∈
              Effect.copy src d.skillsPath name ::
              (if name.data.contains '.' &&
                  env.fsExists (destPath d.skillsPath name ++ "/SKILL.md") then
                [Effect.rewriteName d.skillsPath name] else []) ++
              (copyLoop env managed dryRun name src rest).2.1 := h
          rcases List.mem_cons.mp h2 with h3 | h3
          · exact Effect.noConfusion h3
          rcases List.mem_append.mp h3 with h3 | h3
          · by_cases hrw : (name.data.contains '.' &&
                env.fsExists (destPath d.skillsPath name ++ "/SKILL.md")) = true
            · rw [if_pos hrw] at h3
              exact Effect.noConfusion (List.mem_singleton.mp h3)
            · rw [if_neg hrw] at h3
              cases h3
          · exact ih sp n h3

/-- A skill outcome's trace never deletes anything. -/
theorem outcomeTrace_no_remove (env : SyncEnv) (managed : List String)
    (agentDirs : List AgentDir) (dryRun : Bool) (s : ResolvedSkill)
    (sp n : String) :
    Effect.removeDir sp n ∉
      outcomeTrace (skillOutcome env managed agentDirs dryRun s) := by
  intro h
  unfold skillOutcome at h
  cases hf : env.fetch s.ref with
  | error msg =>
    rw [hf] at h
    cases h
  | ok o =>
    rw [hf] at h
    have h2 : Effect.removeDir sp n ∈ outcomeTrace
        (match copyLoop env managed dryRun s.installName o.path agentDirs with
          | (_, tr, some msg) => SkillOutcome.failed msg
              ((if o.cloned then [Effect.clone s.ref] else []) ++ tr)
          | (agents, tr, none) =>
            if agents.isEmpty then SkillOutcome.skipped
                ((if o.cloned then [Effect.clone s.ref] else []) ++ tr)
            else SkillOutcome.ok (mkInstalled s o.commitSha env.now agents)
                ((if o.cloned then [Effect.clone s.ref] else []) ++ tr)) := h
    obtain ⟨⟨agents, tr0, er0⟩, hcl⟩ :
        ∃ r, copyLoop env managed dryRun s.installName o.path agentDirs = r :=
      ⟨_, rfl⟩
    rw [hcl] at h2
    have hnr := copyLoop_no_remove env managed dryRun s.installName o.path
      agentDirs sp n
    rw [hcl] at hnr
    simp only at hnr
    have hfetchTr : Effect.removeDir sp n ∉
        (if o.cloned then [Effect.clone s.ref] else []) := by
      by_cases hcln : o.cloned <;> simp [hcln]
    cases er0 with
    | some msg =>
      have h3 : Effect.removeDir sp n ∈
          (if o.cloned then [Effect.clone s.ref] else []) ++ tr0 := h2
      rcases List.mem_append.mp h3 with h3 | h3
      · exact hfetchTr h3
      · exact hnr h3
    | none =>
      have h3 : Effect.removeDir sp n ∈ outcomeTrace
          (if agents.isEmpty then SkillOutcome.skipped
              ((if o.cloned then [Effect.clone s.ref] else []) ++ tr0)
            else SkillOutcome.ok (mkInstalled s o.commitSha env.now agents)
              ((if o.cloned then [Effect.clone s.ref] else []) ++ tr0)) := h2
      by_cases hae : agents.isEmpty
      · rw [if_pos hae] at h3
        rcases List.mem_append.mp h3 with h3 | h3
        · exact hfetchTr h3
        · exact hnr h3
      · rw [if_neg hae] at h3
        rcases List.mem_append.mp h3 with h3 | h3
        · exact hfetchTr h3
        · exact hnr h3

theorem remove_foldl_processSkill {env : SyncEnv}
    {prior : List (String × InstalledSkill)} {managed : List String}
    {agentDirs : List AgentDir} {dryRun : Bool} :
    ∀ {l : List ResolvedSkill} (acc : LoopAcc) {sp n : String},
    Effect.removeDir sp n ∈
      (l.foldl (processSkill env prior managed agentDirs dryRun) acc).trace →
    Effect.removeDir sp n ∈ acc.trace := by
  intro l
  induction l with
  | nil => intro acc sp n h; exact h
  | cons s l ih =>
    intro acc sp n h
    rw [List.foldl_cons] at h
    have h' := ih _ h
    have hstep : (processSkill env prior managed agentDirs dryRun acc s).trace =
        acc.trace ++ outcomeTrace (skillOutcome env managed agentDirs dryRun s) := by
      cases ho : skillOutcome env managed agentDirs dryRun s with
      | ok entry tr => rw [processSkill_ok ho]; rfl
      | failed msg tr => rw [processSkill_failed ho]; rfl
      | skipped tr => rw [processSkill_skipped ho]; rfl
    rw [hstep] at h'
    rcases List.mem_append.mp h' with h'' | h''
    · exact h''
    · exact absurd h'' (outcomeTrace_no_remove env managed agentDirs dryRun s sp n)

/-- Every deletion in the orphan fold belongs to a conditional orphan. -/
theorem remove_foldl_processOrphan
    {prior : List (String × InstalledSkill)} {agentDirs : List AgentDir}
    {dryRun : Bool} :
    ∀ {orphans : List String} (acc : OrphanAcc) {sp n : String},
    Effect.removeDir sp n ∈
      (orphans.foldl (processOrphan prior agentDirs dryRun) acc).trace →
    Effect.removeDir sp n ∈ acc.trace ∨
      (n ∈ orphans ∧ ∃ i, lookupKey prior n = some i ∧
        i.type = SkillType.conditional) := by
  intro orphans
  induction orphans with
  | nil => intro acc sp n h; exact Or.inl h
  | cons m orphans ih =>
    intro acc sp n h
    rw [List.foldl_cons] at h
    rcases ih _ h with h' | h'
    · cases hp : lookupKey prior m with
      | none =>
        rw [processOrphan_none hp] at h'
        exact Or.inl h'
      | some i =>
        by_cases ht : i.type = SkillType.conditional
        · rw [processOrphan_conditional hp ht] at h'
          rcases List.mem_append.mp h' with h'' | h''
          · exact Or.inl h''
          · by_cases hdr : dryRun
            · rw [if_pos hdr] at h''
              cases h''
            · rw [if_neg hdr] at h''
              obtain ⟨d, -, hd⟩ := List.mem_map.mp h''
              have hn : n = m := by
                injection hd.symm
              exact Or.inr ⟨hn ▸ List.mem_cons_self _ _, i, hn ▸ hp, ht⟩
        · rw [processOrphan_explicit hp ht] at h'
          exact Or.inl h'
    · exact Or.inr ⟨List.mem_cons_of_mem _ h'.1, h'.2⟩

/-- C5.  In a non-dry sync run, an installed skill whose name is absent from
the resolved set is handled by type: a conditional orphan is removed from
every agent directory, dropped from the new state, and reported in `removed`;
a global/project orphan is reported in `orphaned`, carried forward verbatim
in the new state, and no deletion ever targets its name. -/
theorem syncSkills_orphan_policy (env : SyncEnv) (projectRoot : String)
    (resolvedSkills : List ResolvedSkill) (agentDirs : List AgentDir)
    (state : SyncState) (name : String) (inst : InstalledSkill)
    (hWF : (keysOf (getProjectState state projectRoot).skills).Nodup)
    (hlook : lookupKey (getProjectState state projectRoot).skills name = some inst)
    (habsent : name ∉ resolvedSkills.map (·.installName)) :
    (inst.type = SkillType.conditional →
      name ∈ (syncSkills env projectRoot resolvedSkills agentDirs state false).1.removed ∧
      (∀ d ∈ agentDirs, Effect.removeDir d.skillsPath name ∈
        (syncSkills env projectRoot resolvedSkills agentDirs state false).2) ∧
      lookupKey (getProjectState
        (syncSkills env projectRoot resolvedSkills agentDirs state false).1.updatedState
        projectRoot).skills name = none) ∧
    (inst.type ≠ SkillType.conditional →
      name ∈ (syncSkills env projectRoot resolvedSkills agentDirs state false).1.orphaned ∧
      lookupKey (getProjectState
        (syncSkills env projectRoot resolvedSkills agentDirs state false).1.updatedState
        projectRoot).skills name = some inst ∧
      (∀ sp, Effect.removeDir sp name ∉
        (syncSkills env projectRoot resolvedSkills agentDirs state false).2)) := by
  have hns := not_inSync_of_orphan hlook habsent
  have hnameo : name ∈ getOrphanedSkills state projectRoot resolvedSkills := by
    unfold getOrphanedSkills
    rw [List.mem_filter]
    refine ⟨mem_keysOf_of_lookupKey hlook, ?_⟩
    simp only [decide_eq_true_eq]
    intro hc
    exact habsent (by simpa using hc)
  have hornd : (getOrphanedSkills state projectRoot resolvedSkills).Nodup := by
    unfold getOrphanedSkills
    exact List.Nodup.filter _ hWF
  simp only [syncSkills, hns, Bool.false_eq_true, if_false]
  rw [getProjectState_after_sync]
  have horph := foldl_processOrphan_of_mem
    (getProjectState state projectRoot).skills agentDirs false
    (⟨[], [], (resolvedSkills.foldl (processSkill env
        (getProjectState state projectRoot).skills
        (keysOf (getProjectState state projectRoot).skills) agentDirs false)
      ⟨[], [], [], []⟩).newSkills,
      (resolvedSkills.foldl (processSkill env
        (getProjectState state projectRoot).skills
        (keysOf (getProjectState state projectRoot).skills) agentDirs false)
      ⟨[], [], [], []⟩).trace⟩ : OrphanAcc)
    hnameo hornd hlook
  constructor
  · intro ht
    obtain ⟨h₁, h₂, h₃⟩ := horph.1 ht
    refine ⟨h₁, fun d hd => h₃ rfl d hd, ?_⟩
    rw [h₂]
    show lookupKey (resolvedSkills.foldl (processSkill env
        (getProjectState state projectRoot).skills
        (keysOf (getProjectState state projectRoot).skills) agentDirs false)
      ⟨[], [], [], []⟩).newSkills name = none
    apply lookupKey_eq_none_of_not_mem
    intro hc
    rcases keysOf_foldl_processSkill _ hc with hc' | hc'
    · simp [keysOf] at hc'
    · exact habsent hc'
  · intro ht
    obtain ⟨h₁, h₂⟩ := horph.2 ht
    refine ⟨h₁, h₂, fun sp hc => ?_⟩
    rcases remove_foldl_processOrphan _ hc with hc' | hc'
    · have := remove_foldl_processSkill _ hc'
      cases this
    · obtain ⟨i, hli, hti⟩ := hc'.2
      rw [hlook] at hli
      injection hli with hii
      exact ht (by rw [hii]; exact hti)

/-- Witness for `syncSkills_orphan_policy`: with an empty resolved set, a
conditional installed skill is removed and dropped from state. -/
theorem syncSkills_orphan_policy_witness :
    "oldc" ∈ (syncSkills
      ⟨fun _ => .error "offline", fun _ => false, fun _ _ => none, some [], "T"⟩
      "/p" [] [⟨.claude, "/p/.claude/skills"⟩]
      ⟨1, "", [("/p", ⟨[("oldc", ⟨"a/b", none, none, "T0", [.claude], .conditional⟩),
                        ("oldg", ⟨"c/d", none, none, "T0", [.claude], .global⟩)], true⟩)]⟩
      false).1.removed ∧
    lookupKey (getProjectState (syncSkills
      ⟨fun _ => .error "offline", fun _ => false, fun _ _ => none, some [], "T"⟩
      "/p" [] [⟨.claude, "/p/.claude/skills"⟩]
      ⟨1, "", [("/p", ⟨[("oldc", ⟨"a/b", none, none, "T0", [.claude], .conditional⟩),
                        ("oldg", ⟨"c/d", none, none, "T0", [.claude], .global⟩)], true⟩)]⟩
      false).1.updatedState "/p").skills "oldc" = none := by
  have h := syncSkills_orphan_policy
    ⟨fun _ => .error "offline", fun _ => false, fun _ _ => none, some [], "T"⟩
    "/p" [] [⟨.claude, "/p/.claude/skills"⟩]
    ⟨1, "", [("/p", ⟨[("oldc", ⟨"a/b", none, none, "T0", [.claude], .conditional⟩),
                      ("oldg", ⟨"c/d", none, none, "T0", [.claude], .global⟩)], true⟩)]⟩
    "oldc" ⟨"a/b", none, none, "T0", [.claude], .conditional⟩
    (by decide) rfl (by simp)
  obtain ⟨h₁, h₂, h₃⟩ := h.1 rfl
  exact ⟨h₁, h₃⟩

/-! ## C3: a failed skill's prior entry is preserved -/

/-- C3 counterexample.  Two resolved skills share the install name `"n"` (as
the resolver can produce, see the C2 counterexample); the first fails and
writes the prior entry back, but the second succeeds afterwards and
overwrites it — the prior entry (with `commitSha "old"`) is not in the new
state. -/
theorem syncSkills_failure_preserve_counterexample :
    (syncSkills
      ⟨fun r => if r.source = "bad/skill" then .error "boom"
          else .ok ⟨"/c/g", some "newsha", true⟩,
       fun _ => false, fun _ _ => none, some [], "T1"⟩
      "/p" [⟨⟨"bad/skill", none⟩, .global, "n"⟩,
            ⟨⟨"good/skill", none⟩, .global, "n"⟩]
      [⟨.claude, "/p/.claude/skills"⟩]
      ⟨1, "", [("/p", ⟨[("n", ⟨"old/src", none, some "old", "T0", [.claude],
        .global⟩)], true⟩)]⟩ false).1.errors = ["n: boom"] ∧
    lookupKey (getProjectState (syncSkills
      ⟨fun r => if r.source = "bad/skill" then .error "boom"
          else .ok ⟨"/c/g", some "newsha", true⟩,
       fun _ => false, fun _ _ => none, some [], "T1"⟩
      "/p" [⟨⟨"bad/skill", none⟩, .global, "n"⟩,
            ⟨⟨"good/skill", none⟩, .global, "n"⟩]
      [⟨.claude, "/p/.claude/skills"⟩]
      ⟨1, "", [("/p", ⟨[("n", ⟨"old/src", none, some "old", "T0", [.claude],
        .global⟩)], true⟩)]⟩ false).1.updatedState "/p").skills "n" =
      some ⟨"good/skill", none, some "newsha", "T1", [.claude], .global⟩ ∧
    (InstalledSkill.mk "good/skill" none (some "newsha") "T1" [.claude] .global) ≠
      (InstalledSkill.mk "old/src" none (some "old") "T0" [.claude] .global) :=
  ⟨rfl, rfl, by decide⟩

/-- C3 (amended).  When a resolved skill's fetch or copy fails in an
executing run, the run unconditionally records an error message tagged with
its install name, and every sibling that reconciles successfully is still
synced; and provided no other resolved skill carries the failing skill's
install name, its prior installed entry is kept verbatim in the new state. -/
theorem syncSkills_failure_preserves_prior (env : SyncEnv)
    (projectRoot : String) (resolvedSkills : List ResolvedSkill)
    (agentDirs : List AgentDir) (state : SyncState) (s : ResolvedSkill)
    (msg : String) (tr : List Effect)
    (hs : s ∈ resolvedSkills)
    (hns : isInSync state projectRoot resolvedSkills = false)
    (hfail : skillOutcome env (keysOf (getProjectState state projectRoot).skills)
      agentDirs false s = .failed msg tr) :
    (s.installName ++ ": " ++ msg) ∈
      (syncSkills env projectRoot resolvedSkills agentDirs state false).1.errors ∧
    (∀ t ∈ resolvedSkills, ∀ entry tr',
      skillOutcome env (keysOf (getProjectState state projectRoot).skills)
        agentDirs false t = .ok entry tr' →
      t.installName ∈
        (syncSkills env projectRoot resolvedSkills agentDirs state false).1.synced) ∧
    ((∀ t ∈ resolvedSkills, t.installName = s.installName → t = s) →
      ∀ prior, lookupKey (getProjectState state projectRoot).skills s.installName =
        some prior →
      lookupKey (getProjectState
        (syncSkills env projectRoot resolvedSkills agentDirs state false).1.updatedState
        projectRoot).skills s.installName = some prior) := by
  simp only [syncSkills, hns, Bool.false_eq_true, if_false]
  refine ⟨?_, ?_, ?_⟩
  · exact errors_foldl_processSkill_of_mem
      env (getProjectState state projectRoot).skills
      (keysOf (getProjectState state projectRoot).skills)
      agentDirs false hfail _ hs
  · intro t ht entry tr' htok
    exact synced_foldl_processSkill_of_mem
      env (getProjectState state projectRoot).skills
      (keysOf (getProjectState state projectRoot).skills)
      agentDirs false htok _ ht
  · intro huniq prior hprior
    rw [getProjectState_after_sync]
    show lookupKey ((getOrphanedSkills state projectRoot resolvedSkills).foldl
      (processOrphan (getProjectState state projectRoot).skills agentDirs false)
      ⟨[], [], _, _⟩).newSkills s.installName = some prior
    rw [lookup_foldl_processOrphan_untouched _ (mem_resolved_not_orphan hs)]
    rw [lookup_foldl_processSkill_failed_uniq
      env (getProjectState state projectRoot).skills
      (keysOf (getProjectState state projectRoot).skills)
      agentDirs false hfail (⟨[], [], [], []⟩ : LoopAcc) hs huniq (by simp [keysOf])]
    exact hprior

/-- Witness for `syncSkills_failure_preserves_prior` at two distinct-name
skills, the first failing with a prior entry, the second succeeding. -/
theorem syncSkills_failure_preserves_prior_witness :
    lookupKey (getProjectState (syncSkills
      ⟨fun r => if r.source = "bad/skill" then .error "boom"
          else .ok ⟨"/c/g", some "newsha", true⟩,
       fun _ => false, fun _ _ => none, some [], "T1"⟩
      "/p" [⟨⟨"bad/skill", none⟩, .global, "n1"⟩,
            ⟨⟨"good/skill", none⟩, .global, "n2"⟩]
      [⟨.claude, "/p/.claude/skills"⟩]
      ⟨1, "", [("/p", ⟨[("n1", ⟨"old/src", none, some "old", "T0", [.claude],
        .global⟩)], true⟩)]⟩ false).1.updatedState "/p").skills "n1" =
      some ⟨"old/src", none, some "old", "T0", [.claude], .global⟩ ∧
    ("n1" ++ ": " ++ "boom") ∈ (syncSkills
      ⟨fun r => if r.source = "bad/skill" then .error "boom"
          else .ok ⟨"/c/g", some "newsha", true⟩,
       fun _ => false, fun _ _ => none, some [], "T1"⟩
      "/p" [⟨⟨"bad/skill", none⟩, .global, "n1"⟩,
            ⟨⟨"good/skill", none⟩, .global, "n2"⟩]
      [⟨.claude, "/p/.claude/skills"⟩]
      ⟨1, "", [("/p", ⟨[("n1", ⟨"old/src", none, some "old", "T0", [.claude],
        .global⟩)], true⟩)]⟩ false).1.errors := by
  have h := syncSkills_failure_preserves_prior
    ⟨fun r => if r.source = "bad/skill" then .error "boom"
        else .ok ⟨"/c/g", some "newsha", true⟩,
     fun _ => false, fun _ _ => none, some [], "T1"⟩
    "/p" [⟨⟨"bad/skill", none⟩, .global, "n1"⟩,
          ⟨⟨"good/skill", none⟩, .global, "n2"⟩]
    [⟨.claude, "/p/.claude/skills"⟩]
    ⟨1, "", [("/p", ⟨[("n1", ⟨"old/src", none, some "old", "T0", [.claude],
      .global⟩)], true⟩)]⟩
    ⟨⟨"bad/skill", none⟩, .global, "n1"⟩
    "boom" [] (by simp) rfl rfl
  exact ⟨h.2.2 (by decide) _ rfl, h.1⟩

/-! ## C1: in-sync after a fully successful run, and idempotence -/

/-- A successfully recorded entry carries the resolved skill's `source` and
`path`. -/
theorem skillOutcome_ok_fields {env : SyncEnv} {managed : List String}
    {agentDirs : List AgentDir} {dryRun : Bool} {s : ResolvedSkill}
    {entry : InstalledSkill} {tr : List Effect}
    (h : skillOutcome env managed agentDirs dryRun s = .ok entry tr) :
    entry.source = s.ref.source ∧ entry.path = s.ref.path := by
  unfold skillOutcome at h
  cases hf : env.fetch s.ref with
  | error msg =>
    rw [hf] at h
    exact SkillOutcome.noConfusion h
  | ok o =>
    rw [hf] at h
    have h2 : (match copyLoop env managed dryRun s.installName o.path agentDirs with
      | (_, tr', some msg) => SkillOutcome.failed msg
          ((if o.cloned then [Effect.clone s.ref] else []) ++ tr')
      | (agents, tr', none) =>
        if agents.isEmpty then SkillOutcome.skipped
            ((if o.cloned then [Effect.clone s.ref] else []) ++ tr')
        else SkillOutcome.ok (mkInstalled s o.commitSha env.now agents)
            ((if o.cloned then [Effect.clone s.ref] else []) ++ tr'))
        = SkillOutcome.ok entry tr := h
    obtain ⟨⟨agents, tr0, er0⟩, hcl⟩ :
        ∃ r, copyLoop env managed dryRun s.installName o.path agentDirs = r :=
      ⟨_, rfl⟩
    rw [hcl] at h2
    cases er0 with
    | some msg =>
      exact SkillOutcome.noConfusion
        (show SkillOutcome.failed msg ((if o.cloned then [Effect.clone s.ref]
          else []) ++ tr0) = SkillOutcome.ok entry tr from h2)
    | none =>
      have h3 : (if agents.isEmpty then SkillOutcome.skipped
          ((if o.cloned then [Effect.clone s.ref] else []) ++ tr0)
        else SkillOutcome.ok (mkInstalled s o.commitSha env.now agents)
          ((if o.cloned then [Effect.clone s.ref] else []) ++ tr0))
          = SkillOutcome.ok entry tr := h2
      by_cases hae : agents.isEmpty
      · rw [if_pos hae] at h3
        exact SkillOutcome.noConfusion h3
      · rw [if_neg hae] at h3
        injection h3 with h4 h5
        rw [← h4]
        exact ⟨rfl, rfl⟩

/-- Under all-success, the fold's keys are exactly the processed install
names, appended in order. -/
theorem keysOf_foldl_processSkill_all_ok {env : SyncEnv}
    {prior : List (String × InstalledSkill)} {managed : List String}
    {agentDirs : List AgentDir} {dryRun : Bool} :
    ∀ {l : List ResolvedSkill} (acc : LoopAcc),
    (∀ s ∈ l, ∃ entry tr, skillOutcome env managed agentDirs dryRun s = .ok entry tr) →
    (l.map (·.installName)).Nodup →
    (∀ n ∈ l.map (·.installName), n ∉ keysOf acc.newSkills) →
    keysOf (l.foldl (processSkill env prior managed agentDirs dryRun) acc).newSkills =
      keysOf acc.newSkills ++ l.map (·.installName) := by
  intro l
  induction l with
  | nil => intro acc _ _ _; simp
  | cons s l ih =>
    intro acc hsucc hnodup hdisj
    obtain ⟨entry, tr, ho⟩ := hsucc s (List.mem_cons_self _ _)
    rw [List.foldl_cons, processSkill_ok ho]
    rw [List.map_cons, List.nodup_cons] at hnodup
    have hnotin : s.installName ∉ keysOf acc.newSkills :=
      hdisj s.installName (by simp)
    have hstep : keysOf (setKey acc.newSkills s.installName entry) =
        keysOf acc.newSkills ++ [s.installName] := by
      rw [keysOf_setKey, if_neg hnotin]
    have hrec := ih
      { synced := acc.synced ++ [s.installName], errors := acc.errors,
        newSkills := setKey acc.newSkills s.installName entry,
        trace := acc.trace ++ tr }
      (fun t ht => hsucc t (List.mem_cons_of_mem _ ht)) hnodup.2 (by
        intro n hn hc
        have hc' : n ∈ keysOf (setKey acc.newSkills s.installName entry) := hc
        rw [hstep] at hc'
        rcases List.mem_append.mp hc' with hc'' | hc''
        · exact hdisj n (List.mem_cons_of_mem _ hn) hc''
        · simp only [List.mem_singleton] at hc''
          exact hnodup.1 (hc'' ▸ hn))
    rw [hrec]
    have : keysOf (setKey acc.newSkills s.installName entry) =
        keysOf acc.newSkills ++ [s.installName] := hstep
    rw [show keysOf (LoopAcc.newSkills
        { synced := acc.synced ++ [s.installName], errors := acc.errors,
          newSkills := setKey acc.newSkills s.installName entry,
          trace := acc.trace ++ tr }) =
      keysOf acc.newSkills ++ [s.installName] from hstep]
    simp

/-- The fast path: an in-sync state returns immediately, reporting
`alreadyInSync` and performing no effects. -/
theorem syncSkills_fast_path (env : SyncEnv) (projectRoot : String)
    (resolvedSkills : List ResolvedSkill) (agentDirs : List AgentDir)
    (state : SyncState) (dryRun : Bool)
    (h : isInSync state projectRoot resolvedSkills = true) :
    syncSkills env projectRoot resolvedSkills agentDirs state dryRun =
      (⟨[], [], [], [], true, [], state⟩, []) := by
  unfold syncSkills
  rw [h, if_pos rfl]

/-- `isInSync` holds on a state whose project entry was just replaced by a
skill map keyed exactly by the resolved install names, each entry matching. -/
theorem isInSync_after_update (v : Nat) (t : String)
    (projects : List (String × ProjectState)) (projectRoot : String)
    (ns : List (String × InstalledSkill)) (g : Bool)
    (resolvedSkills : List ResolvedSkill)
    (hkeys : keysOf ns = resolvedSkills.map (·.installName))
    (hmatch : ∀ s ∈ resolvedSkills, entryMatches ns s = true) :
    isInSync ⟨v, t, setKey projects projectRoot ⟨ns, g⟩⟩ projectRoot
      resolvedSkills = true := by
  have hps : (getProjectState
      (⟨v, t, setKey projects projectRoot ⟨ns, g⟩⟩ : SyncState)
      projectRoot).skills = ns := by
    rw [getProjectState_after_sync]
  simp only [isInSync]
  rw [hps, hkeys, if_neg (fun hc => hc rfl), List.all_eq_true]
  exact hmatch

/-- C1 counterexample.  A fully successful non-dry run (no errors, every
resolved skill synced) over a state holding a global-type orphan carries the
orphan's entry forward, so the updated state has one more installed name than
the resolved set and `isInSync` is false — a second run would reconcile (and
fetch/copy) again. -/
theorem syncSkills_insync_after_counterexample :
    (syncSkills
      ⟨fun _ => .ok ⟨"/c/skill", some "sha1", true⟩, fun _ => false,
       fun _ _ => none, some [], "T1"⟩
      "/p" [⟨⟨"a/b", none⟩, .global, "b"⟩] [⟨.claude, "/p/.claude/skills"⟩]
      ⟨1, "", [("/p", ⟨[("ghost", ⟨"x/y", none, some "oldsha", "T0", [.claude],
        .global⟩)], true⟩)]⟩ false).1.errors = [] ∧
    (syncSkills
      ⟨fun _ => .ok ⟨"/c/skill", some "sha1", true⟩, fun _ => false,
       fun _ _ => none, some [], "T1"⟩
      "/p" [⟨⟨"a/b", none⟩, .global, "b"⟩] [⟨.claude, "/p/.claude/skills"⟩]
      ⟨1, "", [("/p", ⟨[("ghost", ⟨"x/y", none, some "oldsha", "T0", [.claude],
        .global⟩)], true⟩)]⟩ false).1.synced = ["b"] ∧
    isInSync (syncSkills
      ⟨fun _ => .ok ⟨"/c/skill", some "sha1", true⟩, fun _ => false,
       fun _ _ => none, some [], "T1"⟩
      "/p" [⟨⟨"a/b", none⟩, .global, "b"⟩] [⟨.claude, "/p/.claude/skills"⟩]
      ⟨1, "", [("/p", ⟨[("ghost", ⟨"x/y", none, some "oldsha", "T0", [.claude],
        .global⟩)], true⟩)]⟩ false).1.updatedState
      "/p" [⟨⟨"a/b", none⟩, .global, "b"⟩] = false :=
  ⟨rfl, rfl, rfl⟩

/-- C1 (amended).  After a non-dry `syncSkills` run with pairwise-distinct
resolved install names in which every resolved skill reconciles successfully
(fetch succeeds and at least one agent directory is reached) and every
installed skill absent from the resolved set is of conditional type,
`isInSync` holds on the updated state, and a second invocation with the same
inputs — under any environment — returns immediately with
`alreadyInSync = true` and an empty effect trace (zero fetch and zero copy
calls). -/
theorem syncSkills_idempotent (env : SyncEnv) (projectRoot : String)
    (resolvedSkills : List ResolvedSkill) (agentDirs : List AgentDir)
    (state : SyncState)
    (hnodup : (resolvedSkills.map (·.installName)).Nodup)
    (hsucc : ∀ s ∈ resolvedSkills, ∃ entry tr,
      skillOutcome env (keysOf (getProjectState state projectRoot).skills)
        agentDirs false s = .ok entry tr)
    (horph : ∀ n inst,
      lookupKey (getProjectState state projectRoot).skills n = some inst →
      n ∉ resolvedSkills.map (·.installName) → inst.type = SkillType.conditional) :
    isInSync
      (syncSkills env projectRoot resolvedSkills agentDirs state false).1.updatedState
      projectRoot resolvedSkills = true ∧
    ∀ env₂ : SyncEnv, syncSkills env₂ projectRoot resolvedSkills agentDirs
        (syncSkills env projectRoot resolvedSkills agentDirs state false).1.updatedState
        false =
      (⟨[], [], [], [], true, [],
        (syncSkills env projectRoot resolvedSkills agentDirs state false).1.updatedState⟩,
       []) := by
  have main : isInSync
      (syncSkills env projectRoot resolvedSkills agentDirs state false).1.updatedState
      projectRoot resolvedSkills = true := by
    cases hsync : isInSync state projectRoot resolvedSkills with
    | true =>
      have : (syncSkills env projectRoot resolvedSkills agentDirs state false).1.updatedState
          = state := by
        simp [syncSkills, hsync]
      rw [this]
      exact hsync
    | false =>
      simp only [syncSkills, hsync, Bool.false_eq_true, if_false]
      have hallcond : ∀ n ∈ getOrphanedSkills state projectRoot resolvedSkills,
          ∀ inst, lookupKey (getProjectState state projectRoot).skills n = some inst →
          inst.type = SkillType.conditional := by
        intro n hn inst hl
        unfold getOrphanedSkills at hn
        rw [List.mem_filter] at hn
        refine horph n inst hl ?_
        have h2 := hn.2
        simp only [decide_eq_true_eq] at h2
        intro hc
        exact h2 (List.elem_eq_true_of_mem hc)
      have hchain := foldl_processOrphan_all_conditional
        (getProjectState state projectRoot).skills agentDirs false
        (⟨[], [], (resolvedSkills.foldl (processSkill env
            (getProjectState state projectRoot).skills
            (keysOf (getProjectState state projectRoot).skills) agentDirs false)
          ⟨[], [], [], []⟩).newSkills,
          (resolvedSkills.foldl (processSkill env
            (getProjectState state projectRoot).skills
            (keysOf (getProjectState state projectRoot).skills) agentDirs false)
          ⟨[], [], [], []⟩).trace⟩ : OrphanAcc) hallcond
      have hkeysall : keysOf (resolvedSkills.foldl (processSkill env
          (getProjectState state projectRoot).skills
          (keysOf (getProjectState state projectRoot).skills) agentDirs false)
          ⟨[], [], [], []⟩).newSkills = resolvedSkills.map (·.installName) := by
        rw [keysOf_foldl_processSkill_all_ok _ hsucc hnodup
          (fun n _ hc => by simp [keysOf] at hc)]
        rfl
      refine isInSync_after_update _ _ _ _ _ _ _ ?_ ?_
      · rw [hchain]
        exact hkeysall
      · intro s hs
        unfold entryMatches
        rw [hchain]
        have hc := foldl_processSkill_of_mem
          env (getProjectState state projectRoot).skills
          (keysOf (getProjectState state projectRoot).skills)
          agentDirs false
          (⟨[], [], [], []⟩ : LoopAcc) hs hnodup (by simp [keysOf])
        obtain ⟨entry, tr, ho⟩ := hsucc s hs
        rw [ho] at hc
        rw [hc.1]
        obtain ⟨hsrc, hpath⟩ := skillOutcome_ok_fields ho
        simp [hsrc, hpath]
  exact ⟨main, fun env₂ => syncSkills_fast_path env₂ _ _ _ _ _ main⟩

/-- Witness for `syncSkills_idempotent`: one remote skill, empty prior state,
one agent directory. -/
theorem syncSkills_idempotent_witness :
    isInSync (syncSkills
      ⟨fun _ => .ok ⟨"/c", some "sha", true⟩, fun _ => false, fun _ _ => none,
       some [], "T"⟩
      "/p" [⟨⟨"a/b", none⟩, .global, "b"⟩] [⟨.claude, "/p/.claude/skills"⟩]
      ⟨1, "", []⟩ false).1.updatedState "/p"
      [⟨⟨"a/b", none⟩, .global, "b"⟩] = true := by
  refine (syncSkills_idempotent
    ⟨fun _ => .ok ⟨"/c", some "sha", true⟩, fun _ => false, fun _ _ => none,
     some [], "T"⟩
    "/p" [⟨⟨"a/b", none⟩, .global, "b"⟩] [⟨.claude, "/p/.claude/skills"⟩]
    ⟨1, "", []⟩ (by decide) ?_ ?_).1
  · intro s hs
    fin_cases hs
    exact ⟨⟨"a/b", none, some "sha", "T", [.claude], .global⟩,
           [Effect.clone ⟨"a/b", none⟩, Effect.copy "/c" "/p/.claude/skills" "b"],
           by decide⟩
  · intro n inst h
    exact Option.noConfusion h

end AiSkillsSync
